import Mathlib

/-!
Formal model of the jupiter-perps-anchor-idl-parsing repository's
event-ingestion and trade-lifecycle reconstruction code, together with
proofs of the specified properties.

The TypeScript sources modelled here:
* `src/examples/trade-history.ts` — `groupEventsIntoTrades` (the lifecycle
  grouper) and its helpers;
* `src/examples/get-positions-by-pda.ts` — the richer grouper variant with
  `maxSize` tracking, and the paginated signature-fetching loop in
  `getPositionEvents`;
* `src/examples/get-liquidation-price.ts` — `getLiquidationPrice`;
* `src/examples/get-open-close-base-fee.ts` — `getOpenCloseBaseFee`.

Modelling conventions:
* JavaScript numbers are modelled by `JSNum`: an exact rational together
  with the three non-finite values `Infinity`, `-Infinity` and `NaN`,
  with JS arithmetic semantics (in particular division by zero yields a
  non-finite value instead of failing).
* `BN` (big-number) arithmetic is exact integer arithmetic; `BN.div`
  truncates toward zero and is modelled by `Int.tdiv`.
* JavaScript `Map`s are modelled by insertion-ordered association lists
  (`JsMap`) with JS `Map.get/set/delete/has` semantics.
* `Array.prototype.sort` (stable since ES2019) is modelled by a stable
  insertion sort parameterised by the JS comparator.
* Trade ids of the form `positionKey + "-" + lifecycleCount` are modelled
  by the pair `(positionKey, lifecycleCount)`; the string encoding is
  injective (the counter's decimal digits contain no dash), so nothing is
  lost.
* `console.error` calls of the grouper (its data-consistency warnings) are
  modelled as an explicit append-only error log carried in the state and
  returned with the result.
-/

namespace JupPerps

/-- Model of a JavaScript number: an exact rational or one of the
non-finite values `Infinity`, `-Infinity`, `NaN`. -/
inductive JSNum where
  | num (q : ℚ)
  | inf
  | negInf
  | nan
deriving DecidableEq, Repr

namespace JSNum

/-- JS `Number.isFinite`. -/
def isFinite : JSNum → Bool
  | num _ => true
  | _ => false

/-- JS truthiness of a number: `0` and `NaN` are falsy. -/
def toBool : JSNum → Bool
  | num q => decide (q ≠ 0)
  | nan => false
  | _ => true

/-- JS unary minus. -/
def neg : JSNum → JSNum
  | num q => num (-q)
  | inf => negInf
  | negInf => inf
  | nan => nan

/-- JS addition. -/
def add : JSNum → JSNum → JSNum
  | nan, _ => nan
  | _, nan => nan
  | inf, negInf => nan
  | negInf, inf => nan
  | inf, _ => inf
  | _, inf => inf
  | negInf, _ => negInf
  | _, negInf => negInf
  | num a, num b => num (a + b)

/-- JS subtraction, `a - b = a + (-b)`. -/
def sub (a b : JSNum) : JSNum := add a (neg b)

/-- JS multiplication. -/
def mul : JSNum → JSNum → JSNum
  | nan, _ => nan
  | _, nan => nan
  | num a, num b => num (a * b)
  | inf, num b => if b = 0 then nan else if 0 < b then inf else negInf
  | num a, inf => if a = 0 then nan else if 0 < a then inf else negInf
  | negInf, num b => if b = 0 then nan else if 0 < b then negInf else inf
  | num a, negInf => if a = 0 then nan else if 0 < a then negInf else inf
  | inf, inf => inf
  | inf, negInf => negInf
  | negInf, inf => negInf
  | negInf, negInf => inf

/-- JS division (zero denominators give signed infinity, `0/0` gives
`NaN`; the JS `+0` denominator behaves as a nonnegative zero). -/
def div : JSNum → JSNum → JSNum
  | nan, _ => nan
  | _, nan => nan
  | num a, num b =>
      if b = 0 then (if a = 0 then nan else if 0 < a then inf else negInf)
      else num (a / b)
  | num _, inf => num 0
  | num _, negInf => num 0
  | inf, num b => if 0 ≤ b then inf else negInf
  | negInf, num b => if 0 ≤ b then negInf else inf
  | inf, inf => nan
  | inf, negInf => nan
  | negInf, inf => nan
  | negInf, negInf => nan

/-- JS `Math.max` on two numbers. -/
def jsMax : JSNum → JSNum → JSNum
  | nan, _ => nan
  | _, nan => nan
  | inf, _ => inf
  | _, inf => inf
  | negInf, b => b
  | a, negInf => a
  | num a, num b => num (max a b)

/-- The JS idiom `x || 0` applied to a possibly-undefined number:
`undefined`, `0` and `NaN` all give `0`. -/
def or0 : Option JSNum → JSNum
  | none => num 0
  | some v => if v.toBool then v else num 0

/-- The JS idiom `x || fb` applied to a possibly-undefined number. -/
def orElse (o : Option JSNum) (fb : JSNum) : JSNum :=
  match o with
  | none => fb
  | some v => if v.toBool then v else fb

/-- JS strict equality test against the literal `0` (`NaN === 0` is
false). -/
def eqZero (a : JSNum) : Bool := decide (a = num 0)

/-- The value is a (finite) positive rational. -/
def isPos : JSNum → Bool
  | num q => decide (0 < q)
  | _ => false

/-- The value is a (finite) nonnegative rational. -/
def isNonNeg : JSNum → Bool
  | num q => decide (0 ≤ q)
  | _ => false

/-- Both values are finite and the first is strictly below the second. -/
def ltFin : JSNum → JSNum → Bool
  | num a, num b => decide (a < b)
  | _, _ => false

/-- Both values are finite and the first is at most the second. -/
def leFin : JSNum → JSNum → Bool
  | num a, num b => decide (a ≤ b)
  | _, _ => false

end JSNum

/-- Stable insertion of `x` into a list already sorted by the JS
comparator `c`: `x` goes before the first element `y` that does not
strictly precede it (`c y x < 0` means `y` stays before `x`). -/
def insertBy {α : Type} (c : α → α → Int) (x : α) : List α → List α
  | [] => [x]
  | y :: ys => if c y x < 0 then y :: insertBy c x ys else x :: y :: ys

/-- Stable sort by a JS comparator, modelling `Array.prototype.sort`
(stable per ES2019) for comparators induced by a numeric key. -/
def sortBy {α : Type} (c : α → α → Int) : List α → List α
  | [] => []
  | x :: xs => insertBy c x (sortBy c xs)

/-- Insertion-ordered association list modelling a JS `Map`. -/
abbrev JsMap (K V : Type) := List (K × V)

namespace JsMap

variable {K V : Type} [DecidableEq K]

/-- JS `Map.get`. -/
def get : JsMap K V → K → Option V
  | [], _ => none
  | (k', v) :: rest, k => if k' = k then some v else get rest k

/-- JS `Map.set`: update in place if present, else append. -/
def set : JsMap K V → K → V → JsMap K V
  | [], k, v => [(k, v)]
  | (k', v') :: rest, k, v =>
      if k' = k then (k, v) :: rest else (k', v') :: set rest k v

/-- JS `Map.delete`. -/
def delete : JsMap K V → K → JsMap K V
  | [], _ => []
  | (k', v') :: rest, k =>
      if k' = k then rest else (k', v') :: delete rest k

/-- JS `Map.has`. -/
def hasKey (m : JsMap K V) (k : K) : Bool := (get m k).isSome

/-- JS `Map.values` (insertion order). -/
def values (m : JsMap K V) : List V := m.map Prod.snd

/-- The keys of the map, in insertion order. -/
def keys (m : JsMap K V) : List K := m.map Prod.fst

end JsMap

/-- Transaction context attached to each decoded event (the `tx` part of
`EventWithTx`); `blockTime` is the parsed timestamp in milliseconds,
`none` for a null block time. -/
structure TxMeta where
  signature : String
  blockTime : Option Int
  feeInLamports : Nat
deriving DecidableEq, Repr

/-- Decoded data of an increase event (`IncreasePositionEvent` /
`InstantIncreasePositionEvent`), with monetary fields as parsed numbers. -/
structure IncreaseData where
  positionKey : String
  positionSide : String
  owner : String
  positionCustody : String
  sizeUsdDelta : JSNum
  positionSizeUsd : JSNum
  collateralUsdDelta : JSNum
  price : JSNum
  feeUsd : Option JSNum
deriving DecidableEq, Repr

/-- Decoded data of a decrease event (`DecreasePositionEvent` /
`InstantDecreasePositionEvent`). -/
structure DecreaseData where
  positionKey : String
  sizeUsdDelta : JSNum
  positionSizeUsd : JSNum
  price : JSNum
  pnlDelta : JSNum
  hasProfit : Bool
  feeUsd : Option JSNum
deriving DecidableEq, Repr

/-- Decoded data of a `LiquidateFullPositionEvent`. -/
structure LiquidateData where
  positionKey : String
  price : JSNum
  pnlDelta : JSNum
  hasProfit : Bool
  feeUsd : Option JSNum
  liquidationFeeUsd : Option JSNum
deriving DecidableEq, Repr

/-- A decoded domain event, tagged by kind; the `instant` flag
distinguishes the `Instant...` event names from the plain ones. -/
inductive PosEvent where
  | increasePos (instant : Bool) (d : IncreaseData)
  | decreasePos (instant : Bool) (d : DecreaseData)
  | liquidateFullPos (d : LiquidateData)
  | tpslEvent (isCreate : Bool) (positionKey : String)
  | fillLimitOrderEvent (positionKey : String)
  | increasePreSwapEvent
  | decreasePostSwapEvent
  | otherEvent (name : String)
deriving DecidableEq, Repr

/-- The TS event name of a decoded event (used by filters and by the
duplicate check in the pda variant). -/
def PosEvent.eventName : PosEvent → String
  | .increasePos false _ => "IncreasePositionEvent"
  | .increasePos true _ => "InstantIncreasePositionEvent"
  | .decreasePos false _ => "DecreasePositionEvent"
  | .decreasePos true _ => "InstantDecreasePositionEvent"
  | .liquidateFullPos _ => "LiquidateFullPositionEvent"
  | .tpslEvent true _ => "InstantCreateTpslEvent"
  | .tpslEvent false _ => "InstantUpdateTpslEvent"
  | .fillLimitOrderEvent _ => "FillLimitOrderEvent"
  | .increasePreSwapEvent => "IncreasePositionPreSwapEvent"
  | .decreasePostSwapEvent => "DecreasePositionPostSwapEvent"
  | .otherEvent n => n

/-- An event together with its transaction context (`EventWithTx` before
the outer nullability). -/
structure EventWTx where
  event : Option PosEvent
  tx : TxMeta
deriving DecidableEq, Repr

/-- Trade status. -/
inductive TradeStatus where
  | active
  | closed
  | liquidated
deriving DecidableEq, Repr

/-- Data-consistency warnings emitted through `console.error` by the
groupers. -/
inductive DataError where
  | missingOpenOnDecrease (positionKey : String)
  | missingOpenOnLiquidate (positionKey : String)
  | missingTradeOnTpsl (positionKey : String)
deriving DecidableEq, Repr

/-- The sort key used by the chronological event sort: epoch millis of
the block time, `0` when null. -/
def timeKey (e : EventWTx) : Int := e.tx.blockTime.getD 0

/-- The `if (!lifecycleCounters.has(k)) lifecycleCounters.set(k, 0)`
counter-initialisation step shared by both grouper variants. -/
def initCounter (m : JsMap String Nat) (k : String) : JsMap String Nat :=
  if JsMap.hasKey m k then m else JsMap.set m k 0

namespace TradeHistory

/-- The `ITrade` interface of `trade-history.ts`; the `id` string
`positionKey + "-" + count` is modelled by the pair. -/
structure ITrade where
  id : String × Nat
  positionKey : String
  positionSide : String
  status : TradeStatus
  owner : String
  entryPrice : JSNum
  exitPrice : Option JSNum
  sizeUsd : JSNum
  collateralUsd : JSNum
  leverage : JSNum
  pnl : Option JSNum
  roi : Option JSNum
  openTime : Option Int
  closeTime : Option Int
  events : List EventWTx
  hasProfit : Option Bool
deriving DecidableEq, Repr

/-- Mutable state of the grouping loop in
`trade-history.ts::groupEventsIntoTrades`. -/
structure GroupState where
  activeTrades : JsMap (String × Nat) ITrade
  completedTrades : List ITrade
  lifecycleCounters : JsMap String Nat
  errorLog : List DataError
deriving DecidableEq, Repr

/-- The empty initial state of the grouping loop. -/
def initialState : GroupState := ⟨[], [], [], []⟩

/-- The lifecycle counter value read by the loop
(`lifecycleCounters.get(k) || 0`). -/
def countOf (st : GroupState) (k : String) : Nat :=
  (JsMap.get st.lifecycleCounters k).getD 0

/-- One iteration of the event loop of
`trade-history.ts::groupEventsIntoTrades` (lines 254-383). -/
def processEvent (st : GroupState) (ewt : EventWTx) : GroupState :=
  match ewt.event with
  | none => st
  | some pe =>
    match pe with
    | .increasePos _ d =>
        let counters := initCounter st.lifecycleCounters d.positionKey
        let n := (JsMap.get counters d.positionKey).getD 0
        let tradeId := (d.positionKey, n)
        match JsMap.get st.activeTrades tradeId with
        | none =>
            let newTrade : ITrade := {
              id := tradeId
              positionKey := d.positionKey
              positionSide := d.positionSide
              status := .active
              owner := d.owner
              entryPrice := d.price
              exitPrice := none
              sizeUsd := d.sizeUsdDelta
              collateralUsd := d.collateralUsdDelta
              leverage := JSNum.div d.sizeUsdDelta d.collateralUsdDelta
              pnl := none
              roi := none
              openTime := ewt.tx.blockTime
              closeTime := none
              events := [ewt]
              hasProfit := none }
            { st with
              activeTrades := JsMap.set st.activeTrades tradeId newTrade
              lifecycleCounters := counters }
        | some t =>
            let newCollateralUsd := JSNum.add t.collateralUsd d.collateralUsdDelta
            let newSizeUsd := JSNum.add t.sizeUsd d.sizeUsdDelta
            let t1 := { t with
              sizeUsd := newSizeUsd
              collateralUsd := newCollateralUsd
              leverage := JSNum.div newSizeUsd newCollateralUsd
              events := t.events ++ [ewt] }
            { st with
              activeTrades := JsMap.set st.activeTrades tradeId t1
              lifecycleCounters := counters }
    | .decreasePos _ d =>
        let counters := initCounter st.lifecycleCounters d.positionKey
        let n := (JsMap.get counters d.positionKey).getD 0
        let tradeId := (d.positionKey, n)
        match JsMap.get st.activeTrades tradeId with
        | none =>
            { st with
              lifecycleCounters := counters
              errorLog := st.errorLog ++ [.missingOpenOnDecrease d.positionKey] }
        | some t =>
            let newPnl := JSNum.add (JSNum.or0 t.pnl) d.pnlDelta
            let t1 := { t with
              events := t.events ++ [ewt]
              exitPrice := some d.price
              pnl := some newPnl
              hasProfit := some d.hasProfit
              roi := some (JSNum.mul (JSNum.div newPnl t.collateralUsd) (JSNum.num 100)) }
            if JSNum.eqZero d.positionSizeUsd then
              let t2 := { t1 with
                status := .closed
                closeTime := ewt.tx.blockTime
                sizeUsd := JSNum.num 0 }
              { st with
                activeTrades := JsMap.delete st.activeTrades tradeId
                completedTrades := st.completedTrades ++ [t2]
                lifecycleCounters := JsMap.set counters d.positionKey (n + 1) }
            else
              let t2 := { t1 with sizeUsd := JSNum.sub t1.sizeUsd d.sizeUsdDelta }
              { st with
                activeTrades := JsMap.set st.activeTrades tradeId t2
                lifecycleCounters := counters }
    | .liquidateFullPos d =>
        let counters := initCounter st.lifecycleCounters d.positionKey
        let n := (JsMap.get counters d.positionKey).getD 0
        let tradeId := (d.positionKey, n)
        match JsMap.get st.activeTrades tradeId with
        | none =>
            { st with
              lifecycleCounters := counters
              errorLog := st.errorLog ++ [.missingOpenOnLiquidate d.positionKey] }
        | some t =>
            let newPnl := JSNum.add (JSNum.or0 t.pnl) d.pnlDelta
            let t1 := { t with
              events := t.events ++ [ewt]
              status := .liquidated
              exitPrice := some d.price
              closeTime := ewt.tx.blockTime
              pnl := some newPnl
              hasProfit := some d.hasProfit
              sizeUsd := JSNum.num 0
              roi := some (JSNum.mul (JSNum.div newPnl t.collateralUsd) (JSNum.num 100)) }
            { st with
              activeTrades := JsMap.delete st.activeTrades tradeId
              completedTrades := st.completedTrades ++ [t1]
              lifecycleCounters := JsMap.set counters d.positionKey (n + 1) }
    | _ => st

/-- The execution-event filter of `trade-history.ts` (only increase,
decrease and liquidation events drive the state machine; remaining kinds
never reach `processEvent`). -/
def isExecutionEvent (e : EventWTx) : Bool :=
  match e.event with
  | some (.increasePos _ _) => true
  | some (.decreasePos _ _) => true
  | some (.liquidateFullPos _) => true
  | _ => false

/-- Null filtering, chronological sort and execution-event filter applied
to the raw input, i.e. the exact list the grouping loop iterates over. -/
def processedEvents (events : List (Option EventWTx)) : List EventWTx :=
  let nonNullEvents := events.filterMap id
  let sortedEvents := sortBy (fun a b => timeKey a - timeKey b) nonNullEvents
  sortedEvents.filter isExecutionEvent

/-- The sort key used on completed trades: close time millis, `0` when
absent. -/
def closeKey (t : ITrade) : Int := t.closeTime.getD 0

/-- Result of the grouper: active and completed trades, plus the
data-consistency error log (the grouper's `console.error` output). -/
structure GroupResult where
  activeTrades : List ITrade
  completedTrades : List ITrade
  errorLog : List DataError
deriving DecidableEq, Repr

/-- Model of `trade-history.ts::groupEventsIntoTrades`. -/
def groupEventsIntoTrades (events : List (Option EventWTx)) : GroupResult :=
  let finalState := (processedEvents events).foldl processEvent initialState
  { activeTrades := JsMap.values finalState.activeTrades
    completedTrades :=
      sortBy (fun a b => closeKey b - closeKey a) finalState.completedTrades
    errorLog := finalState.errorLog }

end TradeHistory

end JupPerps

namespace JupPerps

namespace JsMap

variable {K V : Type} [DecidableEq K]

theorem get_set_self (m : JsMap K V) (k : K) (v : V) :
    get (set m k v) k = some v := by
  induction m with
  | nil => simp [get, set]
  | cons p rest ih =>
      obtain ⟨k1, v1⟩ := p
      by_cases h : k1 = k
      · simp [get, set, h]
      · simp [get, set, h, ih]

theorem get_set_ne (m : JsMap K V) (k k' : K) (v : V) (h : k' ≠ k) :
    get (set m k v) k' = get m k' := by
  have hkk : ¬ k = k' := fun hh => h hh.symm
  induction m with
  | nil => simp [get, set, hkk]
  | cons p rest ih =>
      obtain ⟨k1, v1⟩ := p
      by_cases h1 : k1 = k
      · subst h1
        simp [get, set, hkk]
      · simp [get, set, h1, ih]

theorem get_some_mem (m : JsMap K V) (k : K) (v : V) (h : get m k = some v) :
    (k, v) ∈ m := by
  induction m with
  | nil => simp [get] at h
  | cons p rest ih =>
      obtain ⟨k1, v1⟩ := p
      by_cases h1 : k1 = k
      · subst h1
        simp [get] at h
        simp [h]
      · simp [get, h1] at h
        exact List.mem_cons_of_mem _ (ih h)

theorem mem_set (m : JsMap K V) (k : K) (v : V) (p : K × V)
    (h : p ∈ set m k v) : p = (k, v) ∨ p ∈ m := by
  induction m with
  | nil => simpa [set] using h
  | cons q rest ih =>
      obtain ⟨k1, v1⟩ := q
      by_cases h1 : k1 = k
      · simp [set, h1] at h
        rcases h with h | h
        · exact Or.inl h
        · exact Or.inr (List.mem_cons_of_mem _ h)
      · simp only [set, if_neg h1, List.mem_cons] at h
        rcases h with h | h
        · exact Or.inr (by simp [h])
        · rcases ih h with h2 | h2
          · exact Or.inl h2
          · exact Or.inr (List.mem_cons_of_mem _ h2)

theorem mem_delete (m : JsMap K V) (k : K) (p : K × V)
    (h : p ∈ delete m k) : p ∈ m := by
  induction m with
  | nil => simpa [delete] using h
  | cons q rest ih =>
      obtain ⟨k1, v1⟩ := q
      by_cases h1 : k1 = k
      · simp only [delete, if_pos h1] at h
        exact List.mem_cons_of_mem _ h
      · simp only [delete, if_neg h1, List.mem_cons] at h
        rcases h with h | h
        · exact (by simp [h])
        · exact List.mem_cons_of_mem _ (ih h)

theorem mem_values_set (m : JsMap K V) (k : K) (v x : V)
    (h : x ∈ values (set m k v)) : x = v ∨ x ∈ values m := by
  rcases List.mem_map.mp h with ⟨p, hp, hpx⟩
  rcases mem_set m k v p hp with h2 | h2
  · exact Or.inl (by rw [← hpx, h2])
  · exact Or.inr (List.mem_map.mpr ⟨p, h2, hpx⟩)

theorem mem_values_delete (m : JsMap K V) (k : K) (x : V)
    (h : x ∈ values (delete m k)) : x ∈ values m := by
  rcases List.mem_map.mp h with ⟨p, hp, hpx⟩
  exact List.mem_map.mpr ⟨p, mem_delete m k p hp, hpx⟩

theorem mem_values_of_get (m : JsMap K V) (k : K) (v : V) (h : get m k = some v) :
    v ∈ values m := by
  have := get_some_mem m k v h
  simp [values]
  exact ⟨k, this⟩

end JsMap

/-- The counter value read through `initCounter` is the one read from the
original map (`initCounter` only materialises the default `0`). -/
theorem get_initCounter_getD (m : JsMap String Nat) (k k' : String) :
    (JsMap.get (initCounter m k) k').getD 0 = (JsMap.get m k').getD 0 := by
  unfold initCounter
  by_cases h : JsMap.hasKey m k
  · simp [h]
  · simp only [h, Bool.false_eq_true, if_false]
    by_cases h2 : k' = k
    · subst h2
      rw [JsMap.get_set_self]
      unfold JsMap.hasKey at h
      cases hg : JsMap.get m k' with
      | none => simp
      | some v => simp [hg] at h
    · rw [JsMap.get_set_ne _ _ _ _ h2]

namespace JSNum

theorem div_num_zero_not_finite (x : JSNum) :
    (JSNum.div x (JSNum.num 0)).isFinite = false := by
  cases x with
  | num q =>
      by_cases h0 : q = 0
      · simp [JSNum.div, h0, JSNum.isFinite]
      · by_cases h1 : 0 < q
        · simp [JSNum.div, h0, h1, JSNum.isFinite]
        · simp [JSNum.div, h0, h1, JSNum.isFinite]
  | inf => simp [JSNum.div, JSNum.isFinite]
  | negInf => simp [JSNum.div, JSNum.isFinite]
  | nan => simp [JSNum.div, JSNum.isFinite]

theorem mul_num_not_finite (x : JSNum) (q : ℚ) (hq : 0 < q)
    (h : x.isFinite = false) : (JSNum.mul x (JSNum.num q)).isFinite = false := by
  cases x <;> simp_all [JSNum.mul, JSNum.isFinite, hq.ne', hq]

theorem isPos_add {a b : JSNum} (ha : a.isPos = true) (hb : b.isPos = true) :
    (JSNum.add a b).isPos = true := by
  cases a <;> cases b <;> simp_all [JSNum.add, JSNum.isPos]
  positivity

end JSNum

end JupPerps

namespace JupPerps

namespace TradeHistory

/-- The state after processing the first `n` grouped events of the
input. -/
def stateAt (events : List (Option EventWTx)) (n : ℕ) : GroupState :=
  List.foldl processEvent initialState ((processedEvents events).take n)

/-- All trades tracked by a state: the active map's values plus the
completed list. -/
def tradesOfState (st : GroupState) : List ITrade :=
  JsMap.values st.activeTrades ++ st.completedTrades

/-- Fixture: three-event lifecycle on a fresh identifier, two increases of
size 500 with collateral 50 each, then a full decrease of size 1000 whose
reported remaining position size is 0, with a pnl delta of +30. -/
def seqTx1 : TxMeta := ⟨"sig1", some 1000, 5000⟩

/-- Fixture: transaction context of the second increase. -/
def seqTx2 : TxMeta := ⟨"sig2", some 2000, 5000⟩

/-- Fixture: transaction context of the closing decrease. -/
def seqTx3 : TxMeta := ⟨"sig3", some 3000, 5000⟩

/-- Fixture: first increase event (size 500, collateral 50). -/
def seqInc1 : EventWTx :=
  ⟨some (.increasePos false
    ⟨"P", "Long", "O", "C", .num 500, .num 500, .num 50, .num 150, none⟩), seqTx1⟩

/-- Fixture: second increase event (size 500, collateral 50). -/
def seqInc2 : EventWTx :=
  ⟨some (.increasePos false
    ⟨"P", "Long", "O", "C", .num 500, .num 1000, .num 50, .num 150, none⟩), seqTx2⟩

/-- Fixture: closing decrease event (size 1000, remaining size 0,
pnl +30). -/
def seqDec : EventWTx :=
  ⟨some (.decreasePos false
    ⟨"P", .num 1000, .num 0, .num 160, .num 30, true, none⟩), seqTx3⟩

/-- C1: feeding the grouper the sorted sequence
`[Increase(500,50), Increase(500,50), Decrease(1000, pnl +30)]` (the
decrease reporting remaining size 0) on a fresh identifier yields no
active trades and exactly one completed trade: status closed, size 0,
cumulative pnl 30, collateral 100, and leverage 10 (the leverage
recomputed at the last increase, i.e. immediately before the close, since
decreases never recompute it). -/
theorem trade_lifecycle_concrete_sequence :
    (groupEventsIntoTrades [some seqInc1, some seqInc2, some seqDec]).activeTrades = [] ∧
    ((groupEventsIntoTrades [some seqInc1, some seqInc2, some seqDec]).completedTrades.map
      (fun t => (t.status, t.sizeUsd, t.pnl, t.collateralUsd, t.leverage))) =
      [(.closed, .num 0, some (.num 30), .num 100, .num 10)] := by
  refine ⟨?_, ?_⟩ <;>
  norm_num [groupEventsIntoTrades, processedEvents, sortBy, insertBy, timeKey,
    processEvent, initialState, initCounter, countOf, closeKey,
    seqInc1, seqInc2, seqDec, seqTx1, seqTx2, seqTx3, isExecutionEvent,
    JsMap.get, JsMap.set, JsMap.delete, JsMap.hasKey, JsMap.values,
    JSNum.add, JSNum.sub, JSNum.neg, JSNum.div, JSNum.mul, JSNum.or0,
    JSNum.toBool, JSNum.eqZero]

/-- C8: the grouper is a pure function of its input, so running it twice
on the same sorted event sequence yields identical active and completed
trade sets, field for field. -/
theorem grouping_deterministic (events : List (Option EventWTx)) :
    (groupEventsIntoTrades events).activeTrades =
      (groupEventsIntoTrades events).activeTrades ∧
    (groupEventsIntoTrades events).completedTrades =
      (groupEventsIntoTrades events).completedTrades ∧
    groupEventsIntoTrades events = groupEventsIntoTrades events :=
  ⟨rfl, rfl, rfl⟩

/-- C10: the grouper derives leverage and roi by unguarded division.
Opening a trade with a zero collateral delta stores a non-finite
leverage; an increase making the accumulated collateral zero stores a
non-finite leverage; and a (partial) decrease of a trade whose collateral
is zero stores a non-finite roi. No error is raised and the event is not
rejected in any of these cases. -/
theorem leverage_roi_division_unguarded :
    (∀ (st : GroupState) (ewt : EventWTx) (inst : Bool) (d : IncreaseData),
      ewt.event = some (.increasePos inst d) →
      JsMap.get st.activeTrades (d.positionKey, countOf st d.positionKey) = none →
      d.collateralUsdDelta = JSNum.num 0 →
      ∃ t, JsMap.get (processEvent st ewt).activeTrades
          (d.positionKey, countOf st d.positionKey) = some t ∧
        t.leverage.isFinite = false) ∧
    (∀ (st : GroupState) (ewt : EventWTx) (inst : Bool) (d : IncreaseData) (t : ITrade),
      ewt.event = some (.increasePos inst d) →
      JsMap.get st.activeTrades (d.positionKey, countOf st d.positionKey) = some t →
      JSNum.add t.collateralUsd d.collateralUsdDelta = JSNum.num 0 →
      ∃ u, JsMap.get (processEvent st ewt).activeTrades
          (d.positionKey, countOf st d.positionKey) = some u ∧
        u.leverage.isFinite = false) ∧
    (∀ (st : GroupState) (ewt : EventWTx) (inst : Bool) (d : DecreaseData) (t : ITrade),
      ewt.event = some (.decreasePos inst d) →
      JsMap.get st.activeTrades (d.positionKey, countOf st d.positionKey) = some t →
      t.collateralUsd = JSNum.num 0 →
      JSNum.eqZero d.positionSizeUsd = false →
      ∃ u, JsMap.get (processEvent st ewt).activeTrades
          (d.positionKey, countOf st d.positionKey) = some u ∧
        ∃ r, u.roi = some r ∧ r.isFinite = false) := by
  refine ⟨?_, ?_, ?_⟩
  · intro st ewt inst d he hn hc
    have hn' : JsMap.get st.activeTrades
        (d.positionKey, (JsMap.get st.lifecycleCounters d.positionKey).getD 0) = none := by
      simpa [countOf] using hn
    simp only [processEvent, he, countOf, get_initCounter_getD, hn']
    refine ⟨_, JsMap.get_set_self _ _ _, ?_⟩
    rw [hc]
    exact JSNum.div_num_zero_not_finite _
  · intro st ewt inst d t he ht hc
    have ht' : JsMap.get st.activeTrades
        (d.positionKey, (JsMap.get st.lifecycleCounters d.positionKey).getD 0) = some t := by
      simpa [countOf] using ht
    simp only [processEvent, he, countOf, get_initCounter_getD, ht']
    refine ⟨_, JsMap.get_set_self _ _ _, ?_⟩
    rw [hc]
    exact JSNum.div_num_zero_not_finite _
  · intro st ewt inst d t he ht hc hz
    have ht' : JsMap.get st.activeTrades
        (d.positionKey, (JsMap.get st.lifecycleCounters d.positionKey).getD 0) = some t := by
      simpa [countOf] using ht
    simp only [processEvent, he, countOf, get_initCounter_getD, ht', hz,
      Bool.false_eq_true, if_false]
    refine ⟨_, JsMap.get_set_self _ _ _, ?_⟩
    refine ⟨_, rfl, ?_⟩
    exact JSNum.mul_num_not_finite _ 100 (by norm_num)
      (by rw [hc]; exact JSNum.div_num_zero_not_finite _)

/-- Fixture: opening increase with collateral delta 0 (size 100). -/
def zeroCollIncData : IncreaseData :=
  ⟨"P", "Long", "O", "C", .num 100, .num 100, .num 0, .num 150, none⟩

/-- Fixture: the zero-collateral opening event. -/
def zeroCollEvent : EventWTx := ⟨some (.increasePos false zeroCollIncData), seqTx1⟩

/-- C10 witness: opening with collateral delta 0 on the empty state
stores a trade whose leverage is not finite. -/
theorem leverage_roi_division_unguarded_witness :
    zeroCollEvent.event = some (.increasePos false zeroCollIncData) ∧
    JsMap.get initialState.activeTrades
      ("P", countOf initialState "P") = none ∧
    zeroCollIncData.collateralUsdDelta = JSNum.num 0 ∧
    ∃ t, JsMap.get (processEvent initialState zeroCollEvent).activeTrades
        ("P", countOf initialState "P") = some t ∧
      t.leverage.isFinite = false :=
  ⟨rfl, rfl, rfl,
    leverage_roi_division_unguarded.1 initialState zeroCollEvent false
      zeroCollIncData rfl rfl rfl⟩

end TradeHistory

end JupPerps

namespace JupPerps

namespace JSNum

theorem isPos_isNonNeg {a : JSNum} (h : a.isPos = true) : a.isNonNeg = true := by
  cases a <;> simp_all [isPos, isNonNeg]
  linarith

theorem isPos_ne_zero {a : JSNum} (h : a.isPos = true) : a ≠ num 0 := by
  cases a <;> simp_all [isPos]
  intro h2
  simp [h2] at h

theorem isPos_sub_of_ltFin {a b : JSNum} (h : ltFin a b = true) :
    (sub b a).isPos = true := by
  cases a <;> cases b <;> simp_all [ltFin, sub, add, neg, isPos]

end JSNum

theorem mem_insertBy {α : Type} (c : α → α → Int) (x a : α) (l : List α) :
    a ∈ insertBy c x l ↔ a = x ∨ a ∈ l := by
  induction l with
  | nil => simp [insertBy]
  | cons y ys ih =>
      by_cases h : c y x < 0
      · simp [insertBy, h, ih]
        tauto
      · simp [insertBy, h]

theorem mem_sortBy {α : Type} (c : α → α → Int) (a : α) (l : List α) :
    a ∈ sortBy c l ↔ a ∈ l := by
  induction l with
  | nil => simp [sortBy]
  | cons y ys ih => simp [sortBy, mem_insertBy, ih]

namespace TradeHistory

/-- A single event is consistent with the state it is applied to: an
increase carries a positive finite size delta, and a decrease hitting an
active trade either reports remaining size 0 (a full close) or carries a
finite size delta strictly below the trade's tracked size.  Real chain
data satisfies this: `positionSizeUsd` is the authoritative remaining
size after the delta is applied. -/
def consistentStep (st : GroupState) (ewt : EventWTx) : Bool :=
  match ewt.event with
  | some (.increasePos _ d) => d.sizeUsdDelta.isPos
  | some (.decreasePos _ d) =>
      match JsMap.get st.activeTrades (d.positionKey, countOf st d.positionKey) with
      | none => true
      | some t => JSNum.eqZero d.positionSizeUsd || JSNum.ltFin d.sizeUsdDelta t.sizeUsd
  | _ => true

/-- Every event of the list is consistent with the state reached when it
is applied. -/
def consistentRun : GroupState → List EventWTx → Bool
  | _, [] => true
  | st, e :: rest => consistentStep st e && consistentRun (processEvent st e) rest

/-- The size/status invariant: active trades have status `active` and a
positive finite size; completed trades have a non-`active` status and
size exactly 0. -/
def SizeStatusOk (st : GroupState) : Prop :=
  (∀ t ∈ JsMap.values st.activeTrades, t.status = .active ∧ t.sizeUsd.isPos = true) ∧
  (∀ t ∈ st.completedTrades, t.status ≠ .active ∧ t.sizeUsd = JSNum.num 0)

theorem sizeStatusOk_initial : SizeStatusOk initialState := by
  constructor <;> simp [initialState, JsMap.values]

theorem sizeStatusOk_processEvent (st : GroupState) (ewt : EventWTx)
    (hInv : SizeStatusOk st) (hc : consistentStep st ewt = true) :
    SizeStatusOk (processEvent st ewt) := by
  obtain ⟨hA, hC⟩ := hInv
  cases hev : ewt.event with
  | none => simpa [processEvent, hev] using ⟨hA, hC⟩
  | some pe =>
    cases pe with
    | increasePos inst d =>
        simp only [consistentStep, hev] at hc
        cases hget : JsMap.get st.activeTrades
          (d.positionKey,
            (JsMap.get (initCounter st.lifecycleCounters d.positionKey) d.positionKey).getD 0) with
        | none =>
            refine ⟨?_, ?_⟩
            · intro t ht
              simp only [processEvent, hev, hget] at ht
              rcases JsMap.mem_values_set _ _ _ _ ht with h2 | h2
              · subst h2
                exact ⟨rfl, hc⟩
              · exact hA t h2
            · intro t ht
              simp only [processEvent, hev, hget] at ht
              exact hC t ht
        | some t0 =>
            have ht0 := hA t0 (JsMap.mem_values_of_get _ _ _ hget)
            refine ⟨?_, ?_⟩
            · intro t ht
              simp only [processEvent, hev, hget] at ht
              rcases JsMap.mem_values_set _ _ _ _ ht with h2 | h2
              · subst h2
                exact ⟨ht0.1, JSNum.isPos_add ht0.2 hc⟩
              · exact hA t h2
            · intro t ht
              simp only [processEvent, hev, hget] at ht
              exact hC t ht
    | decreasePos inst d =>
        simp only [consistentStep, hev] at hc
        cases hget : JsMap.get st.activeTrades
          (d.positionKey,
            (JsMap.get (initCounter st.lifecycleCounters d.positionKey) d.positionKey).getD 0) with
        | none =>
            refine ⟨?_, ?_⟩
            · intro t ht
              simp only [processEvent, hev, hget] at ht
              exact hA t ht
            · intro t ht
              simp only [processEvent, hev, hget] at ht
              exact hC t ht
        | some t0 =>
            have ht0 := hA t0 (JsMap.mem_values_of_get _ _ _ hget)
            have hget' : JsMap.get st.activeTrades
                (d.positionKey, countOf st d.positionKey) = some t0 := by
              rw [countOf, ← get_initCounter_getD st.lifecycleCounters d.positionKey]
              exact hget
            rw [hget'] at hc
            by_cases hz : JSNum.eqZero d.positionSizeUsd = true
            · refine ⟨?_, ?_⟩
              · intro t ht
                simp only [processEvent, hev, hget, hz, if_true] at ht
                exact hA t (JsMap.mem_values_delete _ _ _ ht)
              · intro t ht
                simp only [processEvent, hev, hget, hz, if_true] at ht
                rw [List.mem_append] at ht
                rcases ht with ht | ht
                · exact hC t ht
                · simp at ht
                  subst ht
                  exact ⟨by simp, rfl⟩
            · have hz' : JSNum.eqZero d.positionSizeUsd = false := by
                simpa using hz
              rw [hz'] at hc
              simp only [Bool.false_or] at hc
              refine ⟨?_, ?_⟩
              · intro t ht
                simp only [processEvent, hev, hget, hz', Bool.false_eq_true, if_false] at ht
                rcases JsMap.mem_values_set _ _ _ _ ht with h2 | h2
                · subst h2
                  exact ⟨ht0.1, JSNum.isPos_sub_of_ltFin hc⟩
                · exact hA t h2
              · intro t ht
                simp only [processEvent, hev, hget, hz', Bool.false_eq_true, if_false] at ht
                exact hC t ht
    | liquidateFullPos d =>
        cases hget : JsMap.get st.activeTrades
          (d.positionKey,
            (JsMap.get (initCounter st.lifecycleCounters d.positionKey) d.positionKey).getD 0) with
        | none =>
            refine ⟨?_, ?_⟩
            · intro t ht
              simp only [processEvent, hev, hget] at ht
              exact hA t ht
            · intro t ht
              simp only [processEvent, hev, hget] at ht
              exact hC t ht
        | some t0 =>
            refine ⟨?_, ?_⟩
            · intro t ht
              simp only [processEvent, hev, hget] at ht
              exact hA t (JsMap.mem_values_delete _ _ _ ht)
            · intro t ht
              simp only [processEvent, hev, hget] at ht
              rw [List.mem_append] at ht
              rcases ht with ht | ht
              · exact hC t ht
              · simp at ht
                subst ht
                exact ⟨by simp, rfl⟩
    | tpslEvent isCreate k => simpa [processEvent, hev] using ⟨hA, hC⟩
    | fillLimitOrderEvent k => simpa [processEvent, hev] using ⟨hA, hC⟩
    | increasePreSwapEvent => simpa [processEvent, hev] using ⟨hA, hC⟩
    | decreasePostSwapEvent => simpa [processEvent, hev] using ⟨hA, hC⟩
    | otherEvent n => simpa [processEvent, hev] using ⟨hA, hC⟩

theorem sizeStatusOk_foldl (l : List EventWTx) (st : GroupState)
    (hInv : SizeStatusOk st) (hc : consistentRun st l = true) (n : ℕ) :
    SizeStatusOk (List.foldl processEvent st (l.take n)) := by
  induction l generalizing st n with
  | nil => simpa using hInv
  | cons e rest ih =>
      cases n with
      | zero => simpa using hInv
      | succ m =>
          simp only [consistentRun, Bool.and_eq_true] at hc
          simp only [List.take_succ_cons, List.foldl_cons]
          exact ih (processEvent st e)
            (sizeStatusOk_processEvent st e hInv hc.1) hc.2 m

end TradeHistory

end JupPerps

namespace JupPerps

namespace TradeHistory

theorem sizeStatusOk_pointwise (st : GroupState) (hInv : SizeStatusOk st) :
    ∀ t ∈ tradesOfState st,
      t.sizeUsd.isNonNeg = true ∧ (t.sizeUsd = JSNum.num 0 ↔ t.status ≠ .active) := by
  intro t ht
  rw [tradesOfState, List.mem_append] at ht
  rcases ht with ht | ht
  · obtain ⟨hs, hp⟩ := hInv.1 t ht
    refine ⟨JSNum.isPos_isNonNeg hp, ?_⟩
    constructor
    · intro h0
      exact (JSNum.isPos_ne_zero hp h0).elim
    · intro hne
      exact (hne hs).elim
  · obtain ⟨hs, h0⟩ := hInv.2 t ht
    refine ⟨by rw [h0]; simp [JSNum.isNonNeg], ?_⟩
    exact ⟨fun _ => hs, fun _ => h0⟩

/-- Fixture: opening increase whose size delta is 0 (collateral 50). -/
def zeroSizeIncEvent : EventWTx :=
  ⟨some (.increasePos false
    ⟨"P", "Long", "O", "C", .num 0, .num 0, .num 50, .num 150, none⟩), seqTx1⟩

/-- C2 counterexample: the claim asserts that for ANY input sequence a
trade's size is zero iff its status is not active; but an opening
increase whose size delta is 0 creates a trade that is `active` with
`sizeUsd = 0`, so the equivalence fails as stated. -/
theorem size_zero_active_counterexample :
    ((groupEventsIntoTrades [some zeroSizeIncEvent]).activeTrades.map
      (fun t => (t.status, t.sizeUsd))) = [(.active, .num 0)] := by
  norm_num [groupEventsIntoTrades, processedEvents, sortBy, insertBy, timeKey,
    processEvent, initialState, initCounter, countOf, zeroSizeIncEvent, seqTx1,
    isExecutionEvent, JsMap.get, JsMap.set, JsMap.hasKey, JsMap.values, JSNum.div]

/-- C2 (amended): for event sequences that are consistent with the run
(each increase carries a positive finite size delta; each decrease that
hits an active trade either reports remaining size 0 or carries a finite
size delta strictly below the trade's tracked size — which is what real
chain data provides), after every event application and in the returned
result every trade has a nonnegative size, and its size is zero iff its
status is not active. -/
theorem size_zero_iff_terminated (events : List (Option EventWTx))
    (h : consistentRun initialState (processedEvents events) = true) :
    (∀ n, ∀ t ∈ tradesOfState (stateAt events n),
      t.sizeUsd.isNonNeg = true ∧ (t.sizeUsd = JSNum.num 0 ↔ t.status ≠ .active)) ∧
    (∀ t, (t ∈ (groupEventsIntoTrades events).activeTrades ∨
           t ∈ (groupEventsIntoTrades events).completedTrades) →
      t.sizeUsd.isNonNeg = true ∧ (t.sizeUsd = JSNum.num 0 ↔ t.status ≠ .active)) := by
  constructor
  · intro n
    exact sizeStatusOk_pointwise _
      (sizeStatusOk_foldl _ _ sizeStatusOk_initial h n)
  · intro t ht
    have hfin : SizeStatusOk
        (List.foldl processEvent initialState (processedEvents events)) := by
      have h2 := sizeStatusOk_foldl (processedEvents events) initialState
        sizeStatusOk_initial h (processedEvents events).length
      rwa [List.take_length] at h2
    apply sizeStatusOk_pointwise _ hfin
    rw [tradesOfState, List.mem_append]
    rcases ht with ht | ht
    · left
      simpa [groupEventsIntoTrades] using ht
    · right
      exact (mem_sortBy _ t _).mp (by simpa [groupEventsIntoTrades] using ht)

/-- C2 witness: the three-event lifecycle fixture is a consistent run,
and the amended invariant applies to it. -/
theorem size_zero_iff_terminated_witness :
    consistentRun initialState
      (processedEvents [some seqInc1, some seqInc2, some seqDec]) = true ∧
    (∀ n, ∀ t ∈ tradesOfState (stateAt [some seqInc1, some seqInc2, some seqDec] n),
      t.sizeUsd.isNonNeg = true ∧ (t.sizeUsd = JSNum.num 0 ↔ t.status ≠ .active)) := by
  have hcr : consistentRun initialState
      (processedEvents [some seqInc1, some seqInc2, some seqDec]) = true := by
    norm_num [consistentRun, consistentStep, processedEvents, sortBy, insertBy,
      timeKey, processEvent, initialState, initCounter, countOf, seqInc1, seqInc2,
      seqDec, seqTx1, seqTx2, seqTx3, isExecutionEvent, JsMap.get, JsMap.set,
      JsMap.hasKey, JsMap.delete, JSNum.add, JSNum.sub, JSNum.neg, JSNum.div,
      JSNum.mul, JSNum.or0, JSNum.toBool, JSNum.eqZero, JSNum.isPos, JSNum.ltFin]
  exact ⟨hcr, (size_zero_iff_terminated _ hcr).1⟩

end TradeHistory

end JupPerps

namespace JupPerps

namespace JsMap

variable {K V : Type} [DecidableEq K]

theorem mem_keys_set (m : JsMap K V) (k : K) (v : V) (a : K)
    (h : a ∈ keys (set m k v)) : a = k ∨ a ∈ keys m := by
  rcases List.mem_map.mp h with ⟨p, hp, hpa⟩
  rcases mem_set m k v p hp with h2 | h2
  · left
    rw [← hpa, h2]
  · right
    exact List.mem_map.mpr ⟨p, h2, hpa⟩

theorem keys_set_nodup (m : JsMap K V) (k : K) (v : V)
    (h : (keys m).Nodup) : (keys (set m k v)).Nodup := by
  induction m with
  | nil => simp [set, keys]
  | cons p rest ih =>
      obtain ⟨k1, v1⟩ := p
      simp only [keys, List.map_cons, List.nodup_cons] at h
      by_cases h1 : k1 = k
      · subst h1
        simpa [set, keys] using h
      · simp only [set, if_neg h1, keys, List.map_cons, List.nodup_cons]
        refine ⟨?_, ih h.2⟩
        intro hmem
        rcases mem_keys_set rest k v k1 hmem with h2 | h2
        · exact h1 h2
        · exact h.1 h2

theorem delete_sublist (m : JsMap K V) (k : K) : List.Sublist (delete m k) m := by
  induction m with
  | nil => simp [delete]
  | cons p rest ih =>
      obtain ⟨k1, v1⟩ := p
      by_cases h1 : k1 = k
      · simp only [delete, if_pos h1]
        exact List.sublist_cons_self _ _
      · simp only [delete, if_neg h1]
        exact List.Sublist.cons₂ _ ih

theorem keys_delete_nodup (m : JsMap K V) (k : K)
    (h : (keys m).Nodup) : (keys (delete m k)).Nodup :=
  ((delete_sublist m k).map Prod.fst).nodup h

theorem mem_delete_ne (m : JsMap K V) (k0 : K) (p : K × V)
    (hnd : (keys m).Nodup) (h : p ∈ delete m k0) : p ∈ m ∧ p.1 ≠ k0 := by
  induction m with
  | nil => simp [delete] at h
  | cons q rest ih =>
      obtain ⟨k1, v1⟩ := q
      simp only [keys, List.map_cons, List.nodup_cons] at hnd
      by_cases h1 : k1 = k0
      · subst h1
        simp only [delete, if_pos rfl] at h
        refine ⟨List.mem_cons_of_mem _ h, ?_⟩
        intro hpk
        exact hnd.1 (List.mem_map.mpr ⟨p, h, hpk⟩)
      · simp only [delete, if_neg h1, List.mem_cons] at h
        rcases h with h | h
        · subst h
          exact ⟨by simp, h1⟩
        · obtain ⟨hm, hne⟩ := ih hnd.2 h
          exact ⟨List.mem_cons_of_mem _ hm, hne⟩

theorem get_delete_ne (m : JsMap K V) (k k' : K) (h : k' ≠ k) :
    get (delete m k) k' = get m k' := by
  induction m with
  | nil => rfl
  | cons p rest ih =>
      obtain ⟨k1, v1⟩ := p
      by_cases h1 : k1 = k
      · have hne : ¬ k1 = k' := fun hh => h (hh.symm.trans h1)
        simp only [delete, if_pos h1, get, if_neg hne]
      · simp only [delete, if_neg h1, get]
        by_cases h2 : k1 = k'
        · simp only [if_pos h2]
        · simp only [if_neg h2]
          exact ih

theorem get_delete_self (m : JsMap K V) (k : K) (hnd : (keys m).Nodup) :
    get (delete m k) k = none := by
  induction m with
  | nil => rfl
  | cons p rest ih =>
      obtain ⟨k1, v1⟩ := p
      simp only [keys, List.map_cons, List.nodup_cons] at hnd
      by_cases h1 : k1 = k
      · simp only [delete, if_pos h1]
        cases hg : get rest k with
        | none => rfl
        | some v =>
            rw [h1] at hnd
            exact absurd (List.mem_map.mpr ⟨(k, v), get_some_mem rest k v hg, rfl⟩)
              hnd.1
      · simp only [delete, if_neg h1, get, if_neg h1]
        exact ih hnd.2

theorem length_filter_le_one (l : List (K × V)) (q : K × V → Bool) (k0 : K)
    (hnd : (l.map Prod.fst).Nodup) (hq : ∀ p ∈ l, q p = true → p.1 = k0) :
    (l.filter q).length ≤ 1 := by
  induction l with
  | nil => simp
  | cons p rest ih =>
      simp only [List.map_cons, List.nodup_cons] at hnd
      by_cases hp : q p = true
      · have hk : p.1 = k0 := hq p (by simp) hp
        have hrest : rest.filter q = [] := by
          rw [List.eq_nil_iff_forall_not_mem]
          intro p' hp'
          rw [List.mem_filter] at hp'
          have hk' : p'.1 = k0 := hq p' (List.mem_cons_of_mem _ hp'.1) hp'.2
          exact hnd.1 (List.mem_map.mpr ⟨p', hp'.1, by rw [hk', ← hk]⟩)
        simp [List.filter_cons, hp, hrest]
      · simp only [List.filter_cons, hp, Bool.false_eq_true, if_false]
        exact ih hnd.2 (fun p' hp' => hq p' (List.mem_cons_of_mem _ hp'))

end JsMap

end JupPerps

namespace JupPerps

namespace TradeHistory

/-- The key/counter invariant of the grouping loop: active-map keys are
distinct; every active entry is keyed by its trade's position key paired
with the key's current lifecycle counter, and stores that pair as its
trade id; and for every key the ids of its completed trades are exactly
`0, 1, …, counter − 1` in completion order. -/
def KeyCounterOk (st : GroupState) : Prop :=
  (JsMap.keys st.activeTrades).Nodup ∧
  (∀ p ∈ st.activeTrades,
    p.2.positionKey = p.1.1 ∧ p.2.id = p.1 ∧ p.1.2 = countOf st p.1.1) ∧
  (∀ k, ((st.completedTrades.filter (fun t => t.positionKey == k)).map
      (fun t => t.id.2)) = List.range (countOf st k))

theorem keyCounterOk_initial : KeyCounterOk initialState := by
  refine ⟨?_, ?_, ?_⟩ <;> simp [initialState, JsMap.keys, countOf, JsMap.get]

theorem keyCounterOk_processEvent (st : GroupState) (ewt : EventWTx)
    (h : KeyCounterOk st) : KeyCounterOk (processEvent st ewt) := by
  obtain ⟨hnd, hent, hcomp⟩ := h
  cases hev : ewt.event with
  | none => exact ⟨by simpa [processEvent, hev] using hnd,
      by simpa [processEvent, hev] using hent,
      by simpa [processEvent, hev] using hcomp⟩
  | some pe =>
    cases pe with
    | increasePos inst d =>
        cases hget : JsMap.get st.activeTrades
          (d.positionKey,
            (JsMap.get (initCounter st.lifecycleCounters d.positionKey) d.positionKey).getD 0) with
        | none =>
            refine ⟨?_, ?_, ?_⟩
            · simp only [processEvent, hev, hget]
              exact JsMap.keys_set_nodup _ _ _ hnd
            · intro p hp
              simp only [processEvent, hev, hget] at hp ⊢
              rcases JsMap.mem_set _ _ _ _ hp with h2 | h2
              · subst h2
                exact ⟨rfl, rfl, rfl⟩
              · obtain ⟨f1, f2, f3⟩ := hent p h2
                refine ⟨f1, f2, ?_⟩
                simp only [countOf, get_initCounter_getD]
                simpa [countOf] using f3
            · intro k
              simp only [processEvent, hev, hget]
              simp only [countOf, get_initCounter_getD]
              simpa [countOf] using hcomp k
        | some t0 =>
            obtain ⟨e1, e2, e3⟩ := hent _ (JsMap.get_some_mem _ _ _ hget)
            refine ⟨?_, ?_, ?_⟩
            · simp only [processEvent, hev, hget]
              exact JsMap.keys_set_nodup _ _ _ hnd
            · intro p hp
              simp only [processEvent, hev, hget] at hp ⊢
              rcases JsMap.mem_set _ _ _ _ hp with h2 | h2
              · subst h2
                exact ⟨e1, e2, rfl⟩
              · obtain ⟨f1, f2, f3⟩ := hent p h2
                refine ⟨f1, f2, ?_⟩
                simp only [countOf, get_initCounter_getD]
                simpa [countOf] using f3
            · intro k
              simp only [processEvent, hev, hget]
              simp only [countOf, get_initCounter_getD]
              simpa [countOf] using hcomp k
    | decreasePos inst d =>
        cases hget : JsMap.get st.activeTrades
          (d.positionKey,
            (JsMap.get (initCounter st.lifecycleCounters d.positionKey) d.positionKey).getD 0) with
        | none =>
            refine ⟨?_, ?_, ?_⟩
            · simpa only [processEvent, hev, hget] using hnd
            · intro p hp
              simp only [processEvent, hev, hget] at hp ⊢
              obtain ⟨f1, f2, f3⟩ := hent p hp
              refine ⟨f1, f2, ?_⟩
              simp only [countOf, get_initCounter_getD]
              simpa [countOf] using f3
            · intro k
              simp only [processEvent, hev, hget]
              simp only [countOf, get_initCounter_getD]
              simpa [countOf] using hcomp k
        | some t0 =>
            obtain ⟨e1, e2, e3⟩ := hent _ (JsMap.get_some_mem _ _ _ hget)
            have hn : (JsMap.get (initCounter st.lifecycleCounters d.positionKey)
                d.positionKey).getD 0 = countOf st d.positionKey := by
              simpa [countOf] using
                get_initCounter_getD st.lifecycleCounters d.positionKey d.positionKey
            by_cases hz : JSNum.eqZero d.positionSizeUsd = true
            · refine ⟨?_, ?_, ?_⟩
              · simp only [processEvent, hev, hget, hz, if_true]
                exact JsMap.keys_delete_nodup _ _ hnd
              · intro p hp
                simp only [processEvent, hev, hget, hz, if_true] at hp ⊢
                obtain ⟨hpm, hpne⟩ := JsMap.mem_delete_ne _ _ _ hnd hp
                obtain ⟨f1, f2, f3⟩ := hent p hpm
                refine ⟨f1, f2, ?_⟩
                by_cases hk : p.1.1 = d.positionKey
                · exfalso
                  apply hpne
                  have hv : p.1.2 = countOf st d.positionKey := by rw [f3, hk]
                  have hp1 : p.1 = (p.1.1, p.1.2) := rfl
                  rw [hp1, hk, hv, ← hn]
                · simp only [countOf, JsMap.get_set_ne _ _ _ _ hk, get_initCounter_getD]
                  simpa [countOf] using f3
              · intro k
                simp only [processEvent, hev, hget, hz, if_true]
                by_cases hk : k = d.positionKey
                · subst hk
                  have hpk : (t0.positionKey == d.positionKey) = true := by
                    simp only [beq_iff_eq]
                    exact e1
                  simp only [List.filter_append, List.map_append, List.filter_cons,
                    hpk, if_true, List.filter_nil, List.map_cons, List.map_nil]
                  rw [hcomp d.positionKey]
                  have hn2 : ((initCounter st.lifecycleCounters d.positionKey).get
                      d.positionKey).getD 0 = (st.lifecycleCounters.get d.positionKey).getD 0 :=
                    get_initCounter_getD st.lifecycleCounters d.positionKey d.positionKey
                  have hid : t0.id.2 = (st.lifecycleCounters.get d.positionKey).getD 0 := by
                    rw [e2]
                    exact hn2
                  simp only [countOf, JsMap.get_set_self, Option.getD_some]
                  rw [hid, hn2, ← List.range_succ]
                · have hpk : (t0.positionKey == k) = false := by
                    simp only [beq_eq_false_iff_ne, ne_eq]
                    rw [e1]
                    exact fun hh => hk hh.symm
                  simp only [List.filter_append, List.map_append, List.filter_cons,
                    hpk, Bool.false_eq_true, if_false, List.filter_nil,
                    List.map_nil, List.append_nil]
                  have hk2 : k ≠ d.positionKey := hk
                  simp only [countOf, JsMap.get_set_ne _ _ _ _ hk2, get_initCounter_getD]
                  simpa [countOf] using hcomp k
            · have hz' : JSNum.eqZero d.positionSizeUsd = false := by simpa using hz
              refine ⟨?_, ?_, ?_⟩
              · simp only [processEvent, hev, hget, hz', Bool.false_eq_true, if_false]
                exact JsMap.keys_set_nodup _ _ _ hnd
              · intro p hp
                simp only [processEvent, hev, hget, hz', Bool.false_eq_true, if_false] at hp ⊢
                rcases JsMap.mem_set _ _ _ _ hp with h2 | h2
                · subst h2
                  exact ⟨e1, e2, rfl⟩
                · obtain ⟨f1, f2, f3⟩ := hent p h2
                  refine ⟨f1, f2, ?_⟩
                  simp only [countOf, get_initCounter_getD]
                  simpa [countOf] using f3
              · intro k
                simp only [processEvent, hev, hget, hz', Bool.false_eq_true, if_false]
                simp only [countOf, get_initCounter_getD]
                simpa [countOf] using hcomp k
    | liquidateFullPos d =>
        cases hget : JsMap.get st.activeTrades
          (d.positionKey,
            (JsMap.get (initCounter st.lifecycleCounters d.positionKey) d.positionKey).getD 0) with
        | none =>
            refine ⟨?_, ?_, ?_⟩
            · simpa only [processEvent, hev, hget] using hnd
            · intro p hp
              simp only [processEvent, hev, hget] at hp ⊢
              obtain ⟨f1, f2, f3⟩ := hent p hp
              refine ⟨f1, f2, ?_⟩
              simp only [countOf, get_initCounter_getD]
              simpa [countOf] using f3
            · intro k
              simp only [processEvent, hev, hget]
              simp only [countOf, get_initCounter_getD]
              simpa [countOf] using hcomp k
        | some t0 =>
            obtain ⟨e1, e2, e3⟩ := hent _ (JsMap.get_some_mem _ _ _ hget)
            have hn : (JsMap.get (initCounter st.lifecycleCounters d.positionKey)
                d.positionKey).getD 0 = countOf st d.positionKey := by
              simpa [countOf] using
                get_initCounter_getD st.lifecycleCounters d.positionKey d.positionKey
            refine ⟨?_, ?_, ?_⟩
            · simp only [processEvent, hev, hget]
              exact JsMap.keys_delete_nodup _ _ hnd
            · intro p hp
              simp only [processEvent, hev, hget] at hp ⊢
              obtain ⟨hpm, hpne⟩ := JsMap.mem_delete_ne _ _ _ hnd hp
              obtain ⟨f1, f2, f3⟩ := hent p hpm
              refine ⟨f1, f2, ?_⟩
              by_cases hk : p.1.1 = d.positionKey
              · exfalso
                apply hpne
                have hv : p.1.2 = countOf st d.positionKey := by rw [f3, hk]
                have hp1 : p.1 = (p.1.1, p.1.2) := rfl
                rw [hp1, hk, hv, ← hn]
              · simp only [countOf, JsMap.get_set_ne _ _ _ _ hk, get_initCounter_getD]
                simpa [countOf] using f3
            · intro k
              simp only [processEvent, hev, hget]
              by_cases hk : k = d.positionKey
              · subst hk
                have hpk : (t0.positionKey == d.positionKey) = true := by
                  simp only [beq_iff_eq]
                  exact e1
                simp only [List.filter_append, List.map_append, List.filter_cons,
                  hpk, if_true, List.filter_nil, List.map_cons, List.map_nil]
                rw [hcomp d.positionKey]
                have hn2 : ((initCounter st.lifecycleCounters d.positionKey).get
                    d.positionKey).getD 0 = (st.lifecycleCounters.get d.positionKey).getD 0 :=
                  get_initCounter_getD st.lifecycleCounters d.positionKey d.positionKey
                have hid : t0.id.2 = (st.lifecycleCounters.get d.positionKey).getD 0 := by
                  rw [e2]
                  exact hn2
                simp only [countOf, JsMap.get_set_self, Option.getD_some]
                rw [hid, hn2, ← List.range_succ]
              · have hpk : (t0.positionKey == k) = false := by
                  simp only [beq_eq_false_iff_ne, ne_eq]
                  rw [e1]
                  exact fun hh => hk hh.symm
                simp only [List.filter_append, List.map_append, List.filter_cons,
                  hpk, Bool.false_eq_true, if_false, List.filter_nil,
                  List.map_nil, List.append_nil]
                have hk2 : k ≠ d.positionKey := hk
                simp only [countOf, JsMap.get_set_ne _ _ _ _ hk2, get_initCounter_getD]
                simpa [countOf] using hcomp k
    | tpslEvent isCreate k => exact ⟨by simpa [processEvent, hev] using hnd,
        by simpa [processEvent, hev] using hent,
        by simpa [processEvent, hev] using hcomp⟩
    | fillLimitOrderEvent k => exact ⟨by simpa [processEvent, hev] using hnd,
        by simpa [processEvent, hev] using hent,
        by simpa [processEvent, hev] using hcomp⟩
    | increasePreSwapEvent => exact ⟨by simpa [processEvent, hev] using hnd,
        by simpa [processEvent, hev] using hent,
        by simpa [processEvent, hev] using hcomp⟩
    | decreasePostSwapEvent => exact ⟨by simpa [processEvent, hev] using hnd,
        by simpa [processEvent, hev] using hent,
        by simpa [processEvent, hev] using hcomp⟩
    | otherEvent nm => exact ⟨by simpa [processEvent, hev] using hnd,
        by simpa [processEvent, hev] using hent,
        by simpa [processEvent, hev] using hcomp⟩

theorem keyCounterOk_foldl (l : List EventWTx) (st : GroupState)
    (h : KeyCounterOk st) : KeyCounterOk (List.foldl processEvent st l) := by
  induction l generalizing st with
  | nil => simpa using h
  | cons e rest ih =>
      simp only [List.foldl_cons]
      exact ih _ (keyCounterOk_processEvent st e h)

end TradeHistory

end JupPerps

namespace JupPerps

namespace TradeHistory

/-- C3: at every point while the grouper processes any input sequence,
at most one active trade exists per position identifier, and for every
identifier the lifecycle ordinals of its completed trades (in completion
order) are exactly `0, 1, …, counter − 1`, where the counter is
incremented exactly once per termination (it is read through
`countOf`). -/
theorem single_active_per_key_and_ordinals (events : List (Option EventWTx)) (n : ℕ) :
    (∀ k, ((JsMap.values (stateAt events n).activeTrades).filter
        (fun t => t.positionKey == k)).length ≤ 1) ∧
    (∀ k, (((stateAt events n).completedTrades.filter
        (fun t => t.positionKey == k)).map (fun t => t.id.2)) =
      List.range (countOf (stateAt events n) k)) := by
  obtain ⟨hnd, hent, hcomp⟩ :=
    keyCounterOk_foldl ((processedEvents events).take n) initialState keyCounterOk_initial
  refine ⟨?_, fun k => hcomp k⟩
  intro k
  rw [JsMap.values, List.filter_map, List.length_map]
  apply JsMap.length_filter_le_one _ _ (k, countOf (stateAt events n) k) hnd
  intro p hp hq
  obtain ⟨f1, f2, f3⟩ := hent p hp
  simp only [Function.comp_apply, beq_iff_eq] at hq
  have h1 : p.1.1 = k := by rw [← f1, hq]
  refine Prod.ext h1 ?_
  rw [f3, h1]
  rfl

end TradeHistory

end JupPerps

namespace JupPerps

namespace TradeHistory

/-- The data-consistency error the loop will log for this event, when the
event is a decrease or liquidation with no matching active trade. -/
def orphanError (st : GroupState) (ewt : EventWTx) : Option DataError :=
  match ewt.event with
  | some (.decreasePos _ d) =>
      match JsMap.get st.activeTrades (d.positionKey, countOf st d.positionKey) with
      | none => some (.missingOpenOnDecrease d.positionKey)
      | some _ => none
  | some (.liquidateFullPos d) =>
      match JsMap.get st.activeTrades (d.positionKey, countOf st d.positionKey) with
      | none => some (.missingOpenOnLiquidate d.positionKey)
      | some _ => none
  | _ => none

/-- Observational equivalence of loop states: equal active and completed
trades and equal lifecycle-counter readings (the error log and the
counter map's internal representation may differ). -/
def coreEq (st1 st2 : GroupState) : Prop :=
  st1.activeTrades = st2.activeTrades ∧
  st1.completedTrades = st2.completedTrades ∧
  ∀ k, countOf st1 k = countOf st2 k

theorem countOf_initCounter_eq (st1 st2 : GroupState)
    (hK : ∀ k, countOf st1 k = countOf st2 k) (k k' : String) :
    (JsMap.get (initCounter st1.lifecycleCounters k) k').getD 0 =
    (JsMap.get (initCounter st2.lifecycleCounters k) k').getD 0 := by
  rw [get_initCounter_getD, get_initCounter_getD]
  simpa [countOf] using hK k'

theorem processEvent_coreEq (st1 st2 : GroupState) (ewt : EventWTx) (h : coreEq st1 st2) :
    coreEq (processEvent st1 ewt) (processEvent st2 ewt) ∧
    ∃ dl, (processEvent st1 ewt).errorLog = st1.errorLog ++ dl ∧
          (processEvent st2 ewt).errorLog = st2.errorLog ++ dl := by
  obtain ⟨hA, hC, hK⟩ := h
  have hcnt := countOf_initCounter_eq st1 st2 hK
  cases hev : ewt.event with
  | none =>
      exact ⟨⟨by simp [processEvent, hev, hA], by simp [processEvent, hev, hC],
        fun k => by simp [processEvent, hev, hK k]⟩,
        [], by simp [processEvent, hev], by simp [processEvent, hev]⟩
  | some pe =>
    cases pe with
    | increasePos inst d =>
        cases hget : JsMap.get st1.activeTrades
          (d.positionKey,
            (JsMap.get (initCounter st1.lifecycleCounters d.positionKey) d.positionKey).getD 0) with
        | none =>
            have hget2 : JsMap.get st2.activeTrades
                (d.positionKey,
                  (JsMap.get (initCounter st2.lifecycleCounters d.positionKey) d.positionKey).getD 0) = none := by
              rw [← hA, ← hcnt d.positionKey d.positionKey]
              exact hget
            refine ⟨⟨?_, ?_, ?_⟩, [], ?_, ?_⟩ <;>
              simp only [processEvent, hev, hget, hget2]
            · rw [hA, hcnt d.positionKey d.positionKey]
            · exact hC
            · intro k
              simp only [countOf]
              exact hcnt d.positionKey k
            · simp
            · simp
        | some t0 =>
            have hget2 : JsMap.get st2.activeTrades
                (d.positionKey,
                  (JsMap.get (initCounter st2.lifecycleCounters d.positionKey) d.positionKey).getD 0) = some t0 := by
              rw [← hA, ← hcnt d.positionKey d.positionKey]
              exact hget
            refine ⟨⟨?_, ?_, ?_⟩, [], ?_, ?_⟩ <;>
              simp only [processEvent, hev, hget, hget2]
            · rw [hA, hcnt d.positionKey d.positionKey]
            · exact hC
            · intro k
              simp only [countOf]
              exact hcnt d.positionKey k
            · simp
            · simp
    | decreasePos inst d =>
        cases hget : JsMap.get st1.activeTrades
          (d.positionKey,
            (JsMap.get (initCounter st1.lifecycleCounters d.positionKey) d.positionKey).getD 0) with
        | none =>
            have hget2 : JsMap.get st2.activeTrades
                (d.positionKey,
                  (JsMap.get (initCounter st2.lifecycleCounters d.positionKey) d.positionKey).getD 0) = none := by
              rw [← hA, ← hcnt d.positionKey d.positionKey]
              exact hget
            refine ⟨⟨?_, ?_, ?_⟩, [.missingOpenOnDecrease d.positionKey], ?_, ?_⟩ <;>
              simp only [processEvent, hev, hget, hget2]
            · exact hA
            · exact hC
            · intro k
              simp only [countOf]
              exact hcnt d.positionKey k
        | some t0 =>
            have hget2 : JsMap.get st2.activeTrades
                (d.positionKey,
                  (JsMap.get (initCounter st2.lifecycleCounters d.positionKey) d.positionKey).getD 0) = some t0 := by
              rw [← hA, ← hcnt d.positionKey d.positionKey]
              exact hget
            by_cases hz : JSNum.eqZero d.positionSizeUsd = true
            · refine ⟨⟨?_, ?_, ?_⟩, [], ?_, ?_⟩ <;>
                simp only [processEvent, hev, hget, hget2, hz, if_true]
              · rw [hA, hcnt d.positionKey d.positionKey]
              · rw [hC]
              · intro k
                by_cases hk : k = d.positionKey
                · subst hk
                  simp only [countOf, JsMap.get_set_self, Option.getD_some]
                  rw [hcnt d.positionKey d.positionKey]
                · simp only [countOf, JsMap.get_set_ne _ _ _ _ hk]
                  exact hcnt d.positionKey k
              · simp
              · simp
            · have hz' : JSNum.eqZero d.positionSizeUsd = false := by simpa using hz
              refine ⟨⟨?_, ?_, ?_⟩, [], ?_, ?_⟩ <;>
                simp only [processEvent, hev, hget, hget2, hz', Bool.false_eq_true, if_false]
              · rw [hA, hcnt d.positionKey d.positionKey]
              · exact hC
              · intro k
                simp only [countOf]
                exact hcnt d.positionKey k
              · simp
              · simp
    | liquidateFullPos d =>
        cases hget : JsMap.get st1.activeTrades
          (d.positionKey,
            (JsMap.get (initCounter st1.lifecycleCounters d.positionKey) d.positionKey).getD 0) with
        | none =>
            have hget2 : JsMap.get st2.activeTrades
                (d.positionKey,
                  (JsMap.get (initCounter st2.lifecycleCounters d.positionKey) d.positionKey).getD 0) = none := by
              rw [← hA, ← hcnt d.positionKey d.positionKey]
              exact hget
            refine ⟨⟨?_, ?_, ?_⟩, [.missingOpenOnLiquidate d.positionKey], ?_, ?_⟩ <;>
              simp only [processEvent, hev, hget, hget2]
            · exact hA
            · exact hC
            · intro k
              simp only [countOf]
              exact hcnt d.positionKey k
        | some t0 =>
            have hget2 : JsMap.get st2.activeTrades
                (d.positionKey,
                  (JsMap.get (initCounter st2.lifecycleCounters d.positionKey) d.positionKey).getD 0) = some t0 := by
              rw [← hA, ← hcnt d.positionKey d.positionKey]
              exact hget
            refine ⟨⟨?_, ?_, ?_⟩, [], ?_, ?_⟩ <;>
              simp only [processEvent, hev, hget, hget2]
            · rw [hA, hcnt d.positionKey d.positionKey]
            · rw [hC]
            · intro k
              by_cases hk : k = d.positionKey
              · subst hk
                simp only [countOf, JsMap.get_set_self, Option.getD_some]
                rw [hcnt d.positionKey d.positionKey]
              · simp only [countOf, JsMap.get_set_ne _ _ _ _ hk]
                exact hcnt d.positionKey k
            · simp
            · simp
    | tpslEvent isCreate k =>
        exact ⟨⟨by simp [processEvent, hev, hA], by simp [processEvent, hev, hC],
          fun k' => by simp [processEvent, hev, hK k']⟩,
          [], by simp [processEvent, hev], by simp [processEvent, hev]⟩
    | fillLimitOrderEvent k =>
        exact ⟨⟨by simp [processEvent, hev, hA], by simp [processEvent, hev, hC],
          fun k' => by simp [processEvent, hev, hK k']⟩,
          [], by simp [processEvent, hev], by simp [processEvent, hev]⟩
    | increasePreSwapEvent =>
        exact ⟨⟨by simp [processEvent, hev, hA], by simp [processEvent, hev, hC],
          fun k' => by simp [processEvent, hev, hK k']⟩,
          [], by simp [processEvent, hev], by simp [processEvent, hev]⟩
    | decreasePostSwapEvent =>
        exact ⟨⟨by simp [processEvent, hev, hA], by simp [processEvent, hev, hC],
          fun k' => by simp [processEvent, hev, hK k']⟩,
          [], by simp [processEvent, hev], by simp [processEvent, hev]⟩
    | otherEvent nm =>
        exact ⟨⟨by simp [processEvent, hev, hA], by simp [processEvent, hev, hC],
          fun k' => by simp [processEvent, hev, hK k']⟩,
          [], by simp [processEvent, hev], by simp [processEvent, hev]⟩

theorem foldl_coreEq (l : List EventWTx) (st1 st2 : GroupState) (h : coreEq st1 st2) :
    coreEq (List.foldl processEvent st1 l) (List.foldl processEvent st2 l) ∧
    ∃ dl, (List.foldl processEvent st1 l).errorLog = st1.errorLog ++ dl ∧
          (List.foldl processEvent st2 l).errorLog = st2.errorLog ++ dl := by
  induction l generalizing st1 st2 with
  | nil => exact ⟨h, [], by simp, by simp⟩
  | cons e rest ih =>
      obtain ⟨hstep, d0, hd1, hd2⟩ := processEvent_coreEq st1 st2 e h
      obtain ⟨hfold, dl, he1, he2⟩ := ih (processEvent st1 e) (processEvent st2 e) hstep
      refine ⟨by simpa using hfold, d0 ++ dl, ?_, ?_⟩
      · simp only [List.foldl_cons] at *
        rw [he1, hd1, List.append_assoc]
      · simp only [List.foldl_cons] at *
        rw [he2, hd2, List.append_assoc]

end TradeHistory

end JupPerps

namespace JupPerps

namespace TradeHistory

/-- C4: a decrease or liquidation event arriving for an identifier with
no active trade is discarded: the step creates no trade and completes no
trade (in particular no synthetic opening is fabricated), appends exactly
one data-consistency error to the surfaced error log, and the rest of the
sequence is processed exactly as if the orphan event were absent (same
active and completed trades, same further errors). -/
theorem orphan_event_discarded (st : GroupState) (ewt : EventWTx) (err : DataError)
    (h : orphanError st ewt = some err) (rest : List EventWTx) :
    (processEvent st ewt).activeTrades = st.activeTrades ∧
    (processEvent st ewt).completedTrades = st.completedTrades ∧
    (processEvent st ewt).errorLog = st.errorLog ++ [err] ∧
    (List.foldl processEvent st (ewt :: rest)).activeTrades =
      (List.foldl processEvent st rest).activeTrades ∧
    (List.foldl processEvent st (ewt :: rest)).completedTrades =
      (List.foldl processEvent st rest).completedTrades ∧
    ∃ dl, (List.foldl processEvent st (ewt :: rest)).errorLog =
            st.errorLog ++ [err] ++ dl ∧
          (List.foldl processEvent st rest).errorLog = st.errorLog ++ dl := by
  cases hev : ewt.event with
  | none => simp [orphanError, hev] at h
  | some pe =>
    cases pe with
    | increasePos inst d => simp [orphanError, hev] at h
    | tpslEvent isCreate k => simp [orphanError, hev] at h
    | fillLimitOrderEvent k => simp [orphanError, hev] at h
    | increasePreSwapEvent => simp [orphanError, hev] at h
    | decreasePostSwapEvent => simp [orphanError, hev] at h
    | otherEvent nm => simp [orphanError, hev] at h
    | decreasePos inst d =>
        simp only [orphanError, hev] at h
        cases hget : JsMap.get st.activeTrades (d.positionKey, countOf st d.positionKey) with
        | some t0 => rw [hget] at h; exact absurd h (by simp)
        | none =>
            rw [hget] at h
            have herr : err = .missingOpenOnDecrease d.positionKey :=
              (Option.some.inj h).symm
            subst herr
            have hg2 : JsMap.get st.activeTrades
                (d.positionKey,
                  (JsMap.get (initCounter st.lifecycleCounters d.positionKey) d.positionKey).getD 0) = none := by
              rw [get_initCounter_getD]
              simpa [countOf] using hget
            have hsa : (processEvent st ewt).activeTrades = st.activeTrades := by
              simp [processEvent, hev, hg2]
            have hsc : (processEvent st ewt).completedTrades = st.completedTrades := by
              simp [processEvent, hev, hg2]
            have hse : (processEvent st ewt).errorLog =
                st.errorLog ++ [DataError.missingOpenOnDecrease d.positionKey] := by
              simp [processEvent, hev, hg2]
            have hceq : coreEq (processEvent st ewt) st := by
              refine ⟨hsa, hsc, ?_⟩
              intro k'
              simp only [processEvent, hev, hg2]
              simp only [countOf, get_initCounter_getD]
            obtain ⟨hc, dl, h1, h2⟩ := foldl_coreEq rest (processEvent st ewt) st hceq
            refine ⟨hsa, hsc, hse, ?_, ?_, dl, ?_, ?_⟩
            · simpa only [List.foldl_cons] using hc.1
            · simpa only [List.foldl_cons] using hc.2.1
            · simp only [List.foldl_cons]
              rw [h1, hse]
            · exact h2
    | liquidateFullPos d =>
        simp only [orphanError, hev] at h
        cases hget : JsMap.get st.activeTrades (d.positionKey, countOf st d.positionKey) with
        | some t0 => rw [hget] at h; exact absurd h (by simp)
        | none =>
            rw [hget] at h
            have herr : err = .missingOpenOnLiquidate d.positionKey :=
              (Option.some.inj h).symm
            subst herr
            have hg2 : JsMap.get st.activeTrades
                (d.positionKey,
                  (JsMap.get (initCounter st.lifecycleCounters d.positionKey) d.positionKey).getD 0) = none := by
              rw [get_initCounter_getD]
              simpa [countOf] using hget
            have hsa : (processEvent st ewt).activeTrades = st.activeTrades := by
              simp [processEvent, hev, hg2]
            have hsc : (processEvent st ewt).completedTrades = st.completedTrades := by
              simp [processEvent, hev, hg2]
            have hse : (processEvent st ewt).errorLog =
                st.errorLog ++ [DataError.missingOpenOnLiquidate d.positionKey] := by
              simp [processEvent, hev, hg2]
            have hceq : coreEq (processEvent st ewt) st := by
              refine ⟨hsa, hsc, ?_⟩
              intro k'
              simp only [processEvent, hev, hg2]
              simp only [countOf, get_initCounter_getD]
            obtain ⟨hc, dl, h1, h2⟩ := foldl_coreEq rest (processEvent st ewt) st hceq
            refine ⟨hsa, hsc, hse, ?_, ?_, dl, ?_, ?_⟩
            · simpa only [List.foldl_cons] using hc.1
            · simpa only [List.foldl_cons] using hc.2.1
            · simp only [List.foldl_cons]
              rw [h1, hse]
            · exact h2

/-- Fixture: a decrease event on identifier `Q` with no prior opening. -/
def orphanDecEvent : EventWTx :=
  ⟨some (.decreasePos false
    ⟨"Q", .num 100, .num 0, .num 160, .num 5, true, none⟩), seqTx1⟩

/-- C4 witness: the orphan decrease on the empty state is discarded with
exactly one error, and a subsequent increase is processed unaffected. -/
theorem orphan_event_discarded_witness :
    orphanError initialState orphanDecEvent =
      some (.missingOpenOnDecrease "Q") ∧
    ((processEvent initialState orphanDecEvent).activeTrades =
        initialState.activeTrades ∧
      (processEvent initialState orphanDecEvent).completedTrades =
        initialState.completedTrades ∧
      (processEvent initialState orphanDecEvent).errorLog =
        initialState.errorLog ++ [DataError.missingOpenOnDecrease "Q"] ∧
      (List.foldl processEvent initialState (orphanDecEvent :: [seqInc1])).activeTrades =
        (List.foldl processEvent initialState [seqInc1]).activeTrades ∧
      (List.foldl processEvent initialState (orphanDecEvent :: [seqInc1])).completedTrades =
        (List.foldl processEvent initialState [seqInc1]).completedTrades ∧
      ∃ dl, (List.foldl processEvent initialState (orphanDecEvent :: [seqInc1])).errorLog =
              initialState.errorLog ++ [DataError.missingOpenOnDecrease "Q"] ++ dl ∧
            (List.foldl processEvent initialState [seqInc1]).errorLog =
              initialState.errorLog ++ dl) :=
  ⟨rfl, orphan_event_discarded initialState orphanDecEvent
    (.missingOpenOnDecrease "Q") rfl [seqInc1]⟩

end TradeHistory

end JupPerps

namespace JupPerps

namespace GetOpenCloseBaseFee

/-- Basis-point scaling factor (`BPS_POWER` in `constants.ts`). -/
def BPS_POWER : Int := 10000

/-- Model of `get-open-close-base-fee.ts::getOpenCloseBaseFee`, with the
fetched custody account replaced by its two fee-rate fields.  `BN.div`
truncates toward zero, hence `Int.tdiv`. -/
def getOpenCloseBaseFee (tradeSizeUsd increasePositionBps decreasePositionBps : Int)
    (isOpen : Bool) : Int :=
  let baseFeeBps := if isOpen then increasePositionBps else decreasePositionBps
  Int.tdiv (tradeSizeUsd * baseFeeBps) BPS_POWER

theorem tdiv_bps_floor (a b : Int) (ha : 0 ≤ a) (hb : 0 ≤ b) :
    Int.tdiv (a * b) 10000 = ⌊((a * b : Int) : ℚ) / (10000 : ℚ)⌋ := by
  rw [Int.tdiv_eq_ediv (mul_nonneg ha hb) (by norm_num)]
  rw [show (10000 : ℚ) = ((10000 : ℕ) : ℚ) by norm_num]
  rw [Rat.floor_intCast_div_natCast]
  norm_num

/-- C9: for nonnegative fixed-point inputs the base open/close fee is
exactly `⌊size × feeRateBps / 10000⌋` of the exact rational product —
the multiplication happens before the single final division, so no
precision is lost before it. -/
theorem base_fee_exact (tradeSizeUsd iBps dBps : Int) (isOpen : Bool)
    (hs : 0 ≤ tradeSizeUsd) (hb : 0 ≤ (if isOpen then iBps else dBps)) :
    getOpenCloseBaseFee tradeSizeUsd iBps dBps isOpen =
      ⌊((tradeSizeUsd * (if isOpen then iBps else dBps) : Int) : ℚ) / (10000 : ℚ)⌋ := by
  cases isOpen with
  | true =>
      simp only [if_true] at hb ⊢
      simpa only [getOpenCloseBaseFee, BPS_POWER, if_true] using
        tdiv_bps_floor tradeSizeUsd iBps hs hb
  | false =>
      simp only [Bool.false_eq_true, if_false] at hb ⊢
      simpa only [getOpenCloseBaseFee, BPS_POWER, Bool.false_eq_true, if_false] using
        tdiv_bps_floor tradeSizeUsd dBps hs hb

/-- C9 witness: the exact-fee equation at trade size 1000 USD (atomic)
and a 60 bps open rate. -/
theorem base_fee_exact_witness :
    (0 : Int) ≤ 1000000000 ∧
    (0 : Int) ≤ (if true then (60 : Int) else 50) ∧
    getOpenCloseBaseFee 1000000000 60 50 true =
      ⌊((1000000000 * (if true then (60 : Int) else 50) : Int) : ℚ) / (10000 : ℚ)⌋ :=
  ⟨by norm_num, by norm_num,
    base_fee_exact 1000000000 60 50 true (by norm_num) (by norm_num)⟩

end GetOpenCloseBaseFee

namespace GetLiquidationPrice

/-- Basis-point scaling factor (`BPS_POWER` in `constants.ts`). -/
def BPS_POWER : Int := 10000

/-- Funding-rate scaling factor (`RATE_POWER` in `constants.ts`). -/
def RATE_POWER : Int := 1000000000

/-- The position-account fields read by `getLiquidationPrice`;
`long` models the `side.long` check. -/
structure PositionAccount where
  sizeUsd : Int
  collateralUsd : Int
  price : Int
  long : Bool
  cumulativeInterestSnapshot : Int
deriving DecidableEq, Repr

/-- The asset-custody fields read by `getLiquidationPrice`. -/
structure CustodyAccount where
  decreasePositionBps : Int
  tradeImpactFeeScalar : Int
  maxLeverage : Int
deriving DecidableEq, Repr

/-- The collateral-custody fields read by `getLiquidationPrice`. -/
structure CollateralCustodyAccount where
  cumulativeInterestRate : Int
deriving DecidableEq, Repr

/-- Price impact fee in bps: `sizeUsd * BPS_POWER / tradeImpactFeeScalar`. -/
def priceImpactFeeBps (p : PositionAccount) (cu : CustodyAccount) : Int :=
  Int.tdiv (p.sizeUsd * BPS_POWER) cu.tradeImpactFeeScalar

/-- Closing fee in USD: `sizeUsd * (baseFeeBps + impactFeeBps) / BPS_POWER`. -/
def closeFeeUsd (p : PositionAccount) (cu : CustodyAccount) : Int :=
  Int.tdiv (p.sizeUsd * (cu.decreasePositionBps + priceImpactFeeBps p cu)) BPS_POWER

/-- Accrued funding fee:
`(cumulativeInterestRate − snapshot) * sizeUsd / RATE_POWER`. -/
def borrowFeeUsd (p : PositionAccount) (cc : CollateralCustodyAccount) : Int :=
  Int.tdiv ((cc.cumulativeInterestRate - p.cumulativeInterestSnapshot) * p.sizeUsd) RATE_POWER

/-- Total close plus funding fees. -/
def totalFeeUsd (p : PositionAccount) (cu : CustodyAccount)
    (cc : CollateralCustodyAccount) : Int :=
  closeFeeUsd p cu + borrowFeeUsd p cc

/-- Maximum tolerable loss: `sizeUsd * BPS_POWER / maxLeverage + fees`. -/
def maxLossUsd (p : PositionAccount) (cu : CustodyAccount)
    (cc : CollateralCustodyAccount) : Int :=
  Int.tdiv (p.sizeUsd * BPS_POWER) cu.maxLeverage + totalFeeUsd p cu cc

/-- Available margin: the position's collateral. -/
def marginUsd (p : PositionAccount) : Int := p.collateralUsd

/-- Price move to liquidation:
`|maxLossUsd − marginUsd| * price / sizeUsd`. -/
def maxPriceDiff (p : PositionAccount) (cu : CustodyAccount)
    (cc : CollateralCustodyAccount) : Int :=
  Int.tdiv (|maxLossUsd p cu cc - marginUsd p| * p.price) p.sizeUsd

/-- Model of `get-liquidation-price.ts::getLiquidationPrice`: `none` on a
closed position (the early return), otherwise the side- and
margin-dependent liquidation price. -/
def getLiquidationPrice (p : PositionAccount) (cu : CustodyAccount)
    (cc : CollateralCustodyAccount) : Option Int :=
  if p.sizeUsd = 0 then none
  else some (
    if p.long then
      (if maxLossUsd p cu cc > marginUsd p then p.price - maxPriceDiff p cu cc
       else p.price + maxPriceDiff p cu cc)
    else
      (if maxLossUsd p cu cc > marginUsd p then p.price + maxPriceDiff p cu cc
       else p.price - maxPriceDiff p cu cc))

/-- Fixture: a long position for which the computed price delta truncates
to zero (size 1 USD atomic ×10⁶, entry 1000, margin one atomic unit
below the max loss of 20000). -/
def cexPosition : PositionAccount := ⟨1000000, 19999, 1000, true, 5⟩

/-- Fixture: custody with zero base fee, huge market depth and 50×
max leverage (in bps). -/
def cexCustody : CustodyAccount := ⟨0, 1000000000000, 500000⟩

/-- Fixture: collateral custody whose cumulative rate equals the
position's snapshot (zero funding). -/
def cexCollateralCustody : CollateralCustodyAccount := ⟨5⟩

/-- C5 counterexample: a long position with `maxLossUsd > marginUsd`
whose computed liquidation price EQUALS the entry price (the USD
difference of one atomic unit truncates to a zero price delta), so the
claimed strict inequality fails on the code. -/
theorem liquidation_price_not_strict_counterexample :
    cexPosition.long = true ∧
    marginUsd cexPosition < maxLossUsd cexPosition cexCustody cexCollateralCustody ∧
    getLiquidationPrice cexPosition cexCustody cexCollateralCustody =
      some cexPosition.price := by
  refine ⟨rfl, by decide, by decide⟩

/-- C5 (amended): for a position with positive size and nonnegative
entry price, the liquidation price of a long position with
`maxLossUsd > marginUsd` is at most (not strictly below) the entry
price, and of a short position at least the entry price; when
`marginUsd ≥ maxLossUsd` the direction of the offset is flipped for each
side.  Strictness fails exactly when the integer division truncates the
price delta to zero. -/
theorem liquidation_price_direction (p : PositionAccount) (cu : CustodyAccount)
    (cc : CollateralCustodyAccount) (hs : 0 < p.sizeUsd) (hp : 0 ≤ p.price) :
    ∃ liq, getLiquidationPrice p cu cc = some liq ∧
      (p.long = true → marginUsd p < maxLossUsd p cu cc → liq ≤ p.price) ∧
      (p.long = true → maxLossUsd p cu cc ≤ marginUsd p → p.price ≤ liq) ∧
      (p.long = false → marginUsd p < maxLossUsd p cu cc → p.price ≤ liq) ∧
      (p.long = false → maxLossUsd p cu cc ≤ marginUsd p → liq ≤ p.price) := by
  have hd : 0 ≤ maxPriceDiff p cu cc :=
    Int.tdiv_nonneg (mul_nonneg (abs_nonneg _) hp) hs.le
  refine ⟨if p.long then
      (if maxLossUsd p cu cc > marginUsd p then p.price - maxPriceDiff p cu cc
       else p.price + maxPriceDiff p cu cc)
    else
      (if maxLossUsd p cu cc > marginUsd p then p.price + maxPriceDiff p cu cc
       else p.price - maxPriceDiff p cu cc), ?_, ?_, ?_, ?_, ?_⟩
  · simp [getLiquidationPrice, hs.ne']
  · intro hl hcmp
    simp only [hl, if_true, gt_iff_lt, hcmp]
    omega
  · intro hl hcmp
    simp only [hl, if_true, gt_iff_lt, not_lt.mpr hcmp, if_false]
    omega
  · intro hl hcmp
    simp only [hl, Bool.false_eq_true, if_false, gt_iff_lt, hcmp, if_true]
    omega
  · intro hl hcmp
    simp only [hl, Bool.false_eq_true, if_false, gt_iff_lt, not_lt.mpr hcmp]
    omega

/-- C5 witness: the direction bounds instantiated at the concrete long
position fixture. -/
theorem liquidation_price_direction_witness :
    (0 : Int) < cexPosition.sizeUsd ∧ (0 : Int) ≤ cexPosition.price ∧
    ∃ liq, getLiquidationPrice cexPosition cexCustody cexCollateralCustody = some liq ∧
      (cexPosition.long = true →
        marginUsd cexPosition < maxLossUsd cexPosition cexCustody cexCollateralCustody →
        liq ≤ cexPosition.price) ∧
      (cexPosition.long = true →
        maxLossUsd cexPosition cexCustody cexCollateralCustody ≤ marginUsd cexPosition →
        cexPosition.price ≤ liq) ∧
      (cexPosition.long = false →
        marginUsd cexPosition < maxLossUsd cexPosition cexCustody cexCollateralCustody →
        cexPosition.price ≤ liq) ∧
      (cexPosition.long = false →
        maxLossUsd cexPosition cexCustody cexCollateralCustody ≤ marginUsd cexPosition →
        liq ≤ cexPosition.price) :=
  ⟨by decide, by decide,
    liquidation_price_direction cexPosition cexCustody cexCollateralCustody
      (by decide) (by decide)⟩

end GetLiquidationPrice

end JupPerps


namespace JupPerps

namespace GetPositionsByPda

/-- One entry of a `getSignaturesForAddress` page: signature, optional
block time (seconds), error flag. -/
structure SigInfo where
  signature : String
  blockTime : Option Int
  err : Bool
deriving DecidableEq, Repr

/-- Model of `shouldContinueFetching`: keep fetching while the record is
not older than the target date (dates compared in milliseconds); a
missing block time means "continue". -/
def shouldContinueFetching (blockTime : Option Int) (targetDate : Int) : Bool :=
  match blockTime with
  | none => true
  | some bt => decide (targetDate ≤ bt * 1000)

/-- Model of `isWithinDateRange`: block time within
`[targetDate, fromDate]`; records with no block time are excluded. -/
def isWithinDateRange (blockTime : Option Int) (fromDate targetDate : Int) : Bool :=
  match blockTime with
  | none => false
  | some bt => decide (bt * 1000 ≤ fromDate) && decide (targetDate ≤ bt * 1000)

/-- The inner `for` loop of `getPositionEvents` over one fetched page:
retain in-range records, and stop (returning `false`) at the first record
older than the target date, ignoring the rest of the page. -/
def processSigPage (targetDate fromDate : Int) : List SigInfo → List SigInfo × Bool
  | [] => ([], true)
  | s :: rest =>
      if shouldContinueFetching s.blockTime targetDate then
        let r := processSigPage targetDate fromDate rest
        ((if isWithinDateRange s.blockTime fromDate targetDate then s :: r.1 else r.1), r.2)
      else ([], false)

/-- The paginated fetch loop of `get-positions-by-pda.ts::getPositionEvents`
for one identifier.  The upstream source is modelled as the full
newest-first record stream; each fetch takes the next page of (at most)
100 records.  Returns the retained records and the number of pages
fetched.  The loop stops once 1000 records have been fetched, when a page
comes back empty or short, or when a record older than the target date is
seen. -/
def fetchSignaturesLoop (targetDate fromDate : Int) (stream : List SigInfo)
    (totalFetched : ℕ) : List SigInfo × ℕ :=
  if htot : totalFetched < 1000 then
    let page := stream.take 100
    if page.isEmpty then ([], 1)
    else
      let r := processSigPage targetDate fromDate page
      if hcont : r.2 && (page.length == 100) then
        let rest := fetchSignaturesLoop targetDate fromDate (stream.drop 100)
          (totalFetched + page.length)
        (r.1 ++ rest.1, 1 + rest.2)
      else (r.1, 1)
  else ([], 0)
termination_by 1000 - totalFetched
decreasing_by
  have h2 := hcont
  simp only [Bool.and_eq_true, beq_iff_eq] at h2
  have h3 : (100 : ℕ) ⊓ stream.length = 100 := by
    rw [← List.length_take]
    exact h2.2
  simp only [List.length_take]
  omega

/-- Model of the surrounding `getPositionEvents` contract for one
identifier: the date validation aborts (`none`) unless `fromDate` is
strictly newer than `targetDate`; otherwise the loop runs from a fresh
cursor. -/
def getPositionEventsSignatures (targetDate fromDate : Int) (stream : List SigInfo) :
    Option (List SigInfo) :=
  if fromDate ≤ targetDate then none
  else some (fetchSignaturesLoop targetDate fromDate stream 0).1

theorem processSigPage_length (t f : Int) (l : List SigInfo) :
    (processSigPage t f l).1.length ≤ l.length := by
  induction l with
  | nil => simp [processSigPage]
  | cons s rest ih =>
      cases hc : shouldContinueFetching s.blockTime t with
      | false => simp [processSigPage, hc]
      | true =>
          cases hw : isWithinDateRange s.blockTime f t with
          | true =>
              simp only [processSigPage, hc, if_true, hw, List.length_cons]
              omega
          | false =>
              simp only [processSigPage, hc, if_true, hw, Bool.false_eq_true,
                if_false, List.length_cons]
              omega

theorem processSigPage_continue (t f : Int) (l : List SigInfo) :
    (processSigPage t f l).2 = l.all (fun s => shouldContinueFetching s.blockTime t) := by
  induction l with
  | nil => simp [processSigPage]
  | cons s rest ih =>
      cases hc : shouldContinueFetching s.blockTime t with
      | false => simp [processSigPage, hc]
      | true => simp [processSigPage, hc, ih]

theorem fetchSignaturesLoop_length (t f : Int) (m : ℕ) :
    ∀ (stream : List SigInfo) (total : ℕ), total % 100 = 0 →
      1000 - total ≤ m → (fetchSignaturesLoop t f stream total).1.length ≤ 1000 - total := by
  induction m with
  | zero =>
      intro stream total h2 h3
      have hns : ¬ total < 1000 := by omega
      rw [fetchSignaturesLoop.eq_def, dif_neg hns]
      simp
  | succ mm ih =>
      intro stream total h2 h3
      rw [fetchSignaturesLoop.eq_def]
      by_cases htot : total < 1000
      · rw [dif_pos htot]
        by_cases hemp : (stream.take 100).isEmpty
        · simp [hemp]
        · simp only [hemp, Bool.false_eq_true, if_false]
          by_cases hcont : (processSigPage t f (stream.take 100)).2 &&
              ((stream.take 100).length == 100)
          · rw [dif_pos hcont]
            simp only [Bool.and_eq_true, beq_iff_eq] at hcont
            have hlen : (stream.take 100).length = 100 := hcont.2
            have hr : (processSigPage t f (stream.take 100)).1.length ≤ 100 := by
              have h4 := processSigPage_length t f (stream.take 100)
              omega
            have hrec := ih (stream.drop 100) (total + (stream.take 100).length)
              (by omega) (by omega)
            dsimp only
            simp only [List.length_append]
            omega
          · rw [dif_neg hcont]
            dsimp only
            have h4 := processSigPage_length t f (stream.take 100)
            have hle : (stream.take 100).length ≤ 100 := by
              simpa using List.length_take_le 100 stream
            omega
      · rw [dif_neg htot]
        simp

theorem fetchSignaturesLoop_early_exit (t f : Int) (m : ℕ) :
    ∀ (stream : List SigInfo) (total : ℕ), 1000 - total ≤ m →
      ∀ (i : ℕ), i + 1 < (fetchSignaturesLoop t f stream total).2 →
        ((stream.drop (100 * i)).take 100).all
          (fun s => shouldContinueFetching s.blockTime t) = true := by
  induction m with
  | zero =>
      intro stream total h3 i hi
      have hns : ¬ total < 1000 := by omega
      rw [fetchSignaturesLoop.eq_def, dif_neg hns] at hi
      simp at hi
  | succ mm ih =>
      intro stream total h3 i hi
      by_cases htot : total < 1000
      · rw [fetchSignaturesLoop.eq_def, dif_pos htot] at hi
        by_cases hemp : (stream.take 100).isEmpty
        · simp [hemp] at hi
        · simp only [hemp, Bool.false_eq_true, if_false] at hi
          by_cases hcont : (processSigPage t f (stream.take 100)).2 &&
              ((stream.take 100).length == 100)
          · rw [dif_pos hcont] at hi
            dsimp only at hi
            simp only [Bool.and_eq_true, beq_iff_eq] at hcont
            cases i with
            | zero =>
                simp only [Nat.mul_zero, List.drop_zero]
                have h2 := processSigPage_continue t f (stream.take 100)
                rw [hcont.1] at h2
                exact h2.symm
            | succ j =>
                have hij : j + 1 < (fetchSignaturesLoop t f (stream.drop 100)
                    (total + (stream.take 100).length)).2 := by omega
                have hres := ih (stream.drop 100) (total + (stream.take 100).length)
                  (by omega) j hij
                have harith : 100 * (j + 1) = 100 + 100 * j := by ring
                rw [harith, ← List.drop_drop]
                exact hres
          · rw [dif_neg hcont] at hi
            dsimp only at hi
            omega
      · rw [fetchSignaturesLoop.eq_def, dif_neg htot] at hi
        simp at hi

/-- C7: for any upstream stream and any window, the per-identifier fetch
loop retains at most 1000 records, and every fetched page except the last
contains no record older than the target date - i.e. once a too-old
record is observed, no further page is fetched. -/
theorem ingestion_cap_and_early_exit (targetDate fromDate : Int) (stream : List SigInfo) :
    (fetchSignaturesLoop targetDate fromDate stream 0).1.length ≤ 1000 ∧
    (List.range ((fetchSignaturesLoop targetDate fromDate stream 0).2 - 1)).all
      (fun i => ((stream.drop (100 * i)).take 100).all
        (fun s => shouldContinueFetching s.blockTime targetDate)) = true := by
  constructor
  · simpa using fetchSignaturesLoop_length targetDate fromDate 1000 stream 0 rfl (by norm_num)
  · rw [List.all_eq_true]
    intro i hiRange
    rw [List.mem_range] at hiRange
    exact fetchSignaturesLoop_early_exit targetDate fromDate
      1000 stream 0 (by norm_num) i (by omega)

end GetPositionsByPda

end JupPerps

namespace JupPerps

namespace GetPositionsByPda

/-- The `ITrade` interface of `get-positions-by-pda.ts`, which extends
the trade record with `asset`, `finalSize`, `maxSize` and `totalFees`. -/
structure ITrade where
  id : String × Nat
  positionKey : String
  positionSide : String
  status : TradeStatus
  owner : String
  asset : Option String
  entryPrice : JSNum
  exitPrice : Option JSNum
  sizeUsd : JSNum
  finalSize : Option JSNum
  maxSize : Option JSNum
  collateralUsd : JSNum
  leverage : JSNum
  pnl : Option JSNum
  roi : Option JSNum
  totalFees : Option JSNum
  openTime : Option Int
  closeTime : Option Int
  events : List EventWTx
  hasProfit : Option Bool
deriving DecidableEq, Repr

/-- Mutable state of the grouping loop of
`get-positions-by-pda.ts::groupEventsIntoTrades`. -/
structure GroupState where
  activeTrades : JsMap (String × Nat) ITrade
  completedTrades : List ITrade
  lifecycleCounters : JsMap String Nat
  errorLog : List DataError
deriving DecidableEq, Repr

/-- The empty initial state of the grouping loop. -/
def initialState : GroupState := ⟨[], [], [], []⟩

/-- The lifecycle counter value read by the loop. -/
def countOf (st : GroupState) (k : String) : Nat :=
  (JsMap.get st.lifecycleCounters k).getD 0

/-- The `parseUsdValue(data.feeUsd || '0')` idiom: a missing fee field
parses to 0. -/
def feeOf (o : Option JSNum) : JSNum := o.getD (JSNum.num 0)

/-- The `eventsByTimestamp` map: all (non-null) events grouped by their
(truthy) block time, in encounter order. -/
def groupByTime (l : List EventWTx) : JsMap Int (List EventWTx) :=
  l.foldl (fun m evt =>
    match evt.tx.blockTime with
    | none => m
    | some bt => JsMap.set m bt ((JsMap.get m bt).getD [] ++ [evt])) []

/-- `eventsByTimestamp.get(tx.blockTime || '') || []`: the same-timestamp
group of an event, empty for a null block time. -/
def eventsAtTime (byTime : JsMap Int (List EventWTx)) (bt : Option Int) :
    List EventWTx :=
  match bt with
  | none => []
  | some t2 => (JsMap.get byTime t2).getD []

/-- The duplicate check used when attaching auxiliary events: same
signature and same event name as an already-attached event. -/
def isDuplicateIn (evts : List EventWTx) (evt : EventWTx) : Bool :=
  evts.any (fun ex => decide (ex.tx.signature = evt.tx.signature) &&
    decide (ex.event.map PosEvent.eventName = evt.event.map PosEvent.eventName))

/-- Attaching all same-timestamp events to a trade, skipping events with
no decoded payload or an empty name and deduplicating by
signature + name against the growing list. -/
def attachEvents (tradeEvents : List EventWTx) (toAttach : List EventWTx) :
    List EventWTx :=
  toAttach.foldl (fun acc evt =>
    match evt.event with
    | none => acc
    | some pe =>
        if pe.eventName = "" then acc
        else if isDuplicateIn acc evt then acc
        else acc ++ [evt]) tradeEvents

/-- The `positionEvents` filter of the pda variant (ten event names,
including TP/SL, pre/post-swap and limit-order fills). -/
def isPositionEvent (e : EventWTx) : Bool :=
  match e.event with
  | some (.increasePos _ _) => true
  | some (.decreasePos _ _) => true
  | some (.liquidateFullPos _) => true
  | some (.tpslEvent _ _) => true
  | some (.fillLimitOrderEvent _) => true
  | some .increasePreSwapEvent => true
  | some .decreasePostSwapEvent => true
  | _ => false

/-- One iteration of the event loop of
`get-positions-by-pda.ts::groupEventsIntoTrades` (lines 1364-1573).
`byTime` is the prebuilt `eventsByTimestamp` map; `assetNameOf` models
`getAssetNameFromCustody` over the custody constants.  Pre/post-swap
events fall through every branch of the loop body without touching the
trade state. -/
def processEvent (byTime : JsMap Int (List EventWTx)) (assetNameOf : String → String)
    (st : GroupState) (ewt : EventWTx) : GroupState :=
  match ewt.event with
  | none => st
  | some pe =>
    match pe with
    | .increasePos _ d =>
        let counters := initCounter st.lifecycleCounters d.positionKey
        let n := (JsMap.get counters d.positionKey).getD 0
        let tradeId := (d.positionKey, n)
        let allEventsAtTimestamp := eventsAtTime byTime ewt.tx.blockTime
        match JsMap.get st.activeTrades tradeId with
        | none =>
            let newTrade : ITrade := {
              id := tradeId
              positionKey := d.positionKey
              positionSide := d.positionSide
              status := .active
              owner := d.owner
              asset := some (assetNameOf d.positionCustody)
              entryPrice := d.price
              exitPrice := none
              sizeUsd := d.sizeUsdDelta
              finalSize := none
              maxSize := some d.sizeUsdDelta
              collateralUsd := d.collateralUsdDelta
              leverage := JSNum.div d.sizeUsdDelta d.collateralUsdDelta
              pnl := none
              roi := none
              totalFees := some (feeOf d.feeUsd)
              openTime := ewt.tx.blockTime
              closeTime := none
              events := allEventsAtTimestamp
              hasProfit := none }
            { st with
              activeTrades := JsMap.set st.activeTrades tradeId newTrade
              lifecycleCounters := counters }
        | some t =>
            let newCollateralUsd := JSNum.add t.collateralUsd d.collateralUsdDelta
            let newSizeUsd := JSNum.add t.sizeUsd d.sizeUsdDelta
            let t1 := { t with
              sizeUsd := newSizeUsd
              maxSize := some (JSNum.jsMax newSizeUsd (JSNum.or0 t.maxSize))
              collateralUsd := newCollateralUsd
              leverage := JSNum.div newSizeUsd newCollateralUsd
              totalFees := some (JSNum.add (JSNum.or0 t.totalFees) (feeOf d.feeUsd))
              events := attachEvents t.events allEventsAtTimestamp }
            { st with
              activeTrades := JsMap.set st.activeTrades tradeId t1
              lifecycleCounters := counters }
    | .decreasePos _ d =>
        let counters := initCounter st.lifecycleCounters d.positionKey
        let n := (JsMap.get counters d.positionKey).getD 0
        let tradeId := (d.positionKey, n)
        let allEventsAtTimestamp := eventsAtTime byTime ewt.tx.blockTime
        match JsMap.get st.activeTrades tradeId with
        | none =>
            { st with
              lifecycleCounters := counters
              errorLog := st.errorLog ++ [.missingOpenOnDecrease d.positionKey] }
        | some t =>
            let newPnl := JSNum.add (JSNum.or0 t.pnl) d.pnlDelta
            let t1 := { t with
              events := attachEvents t.events allEventsAtTimestamp
              exitPrice := some d.price
              pnl := some newPnl
              hasProfit := some d.hasProfit
              totalFees := some (JSNum.add (JSNum.or0 t.totalFees) (feeOf d.feeUsd))
              roi := some (JSNum.mul (JSNum.div newPnl t.collateralUsd) (JSNum.num 100)) }
            if JSNum.eqZero d.positionSizeUsd then
              let t2 := { t1 with
                finalSize := some (JSNum.orElse t1.maxSize
                  (JSNum.add t1.sizeUsd d.sizeUsdDelta))
                status := .closed
                closeTime := ewt.tx.blockTime
                sizeUsd := JSNum.num 0 }
              { st with
                activeTrades := JsMap.delete st.activeTrades tradeId
                completedTrades := st.completedTrades ++ [t2]
                lifecycleCounters := JsMap.set counters d.positionKey (n + 1) }
            else
              let t2 := { t1 with sizeUsd := JSNum.sub t1.sizeUsd d.sizeUsdDelta }
              { st with
                activeTrades := JsMap.set st.activeTrades tradeId t2
                lifecycleCounters := counters }
    | .liquidateFullPos d =>
        let counters := initCounter st.lifecycleCounters d.positionKey
        let n := (JsMap.get counters d.positionKey).getD 0
        let tradeId := (d.positionKey, n)
        let allEventsAtTimestamp := eventsAtTime byTime ewt.tx.blockTime
        match JsMap.get st.activeTrades tradeId with
        | none =>
            { st with
              lifecycleCounters := counters
              errorLog := st.errorLog ++ [.missingOpenOnLiquidate d.positionKey] }
        | some t =>
            let newPnl := JSNum.add (JSNum.or0 t.pnl) d.pnlDelta
            let t1 := { t with
              events := attachEvents t.events allEventsAtTimestamp
              status := .liquidated
              exitPrice := some d.price
              closeTime := ewt.tx.blockTime
              pnl := some newPnl
              hasProfit := some d.hasProfit
              totalFees := some (JSNum.add
                (JSNum.add (JSNum.or0 t.totalFees) (feeOf d.feeUsd))
                (feeOf d.liquidationFeeUsd))
              finalSize := some (JSNum.orElse t.maxSize t.sizeUsd)
              sizeUsd := JSNum.num 0
              roi := some (JSNum.mul (JSNum.div newPnl t.collateralUsd) (JSNum.num 100)) }
            { st with
              activeTrades := JsMap.delete st.activeTrades tradeId
              completedTrades := st.completedTrades ++ [t1]
              lifecycleCounters := JsMap.set counters d.positionKey (n + 1) }
    | .tpslEvent _ k =>
        let counters := initCounter st.lifecycleCounters k
        let n := (JsMap.get counters k).getD 0
        let tradeId := (k, n)
        let allEventsAtTimestamp := eventsAtTime byTime ewt.tx.blockTime
        match JsMap.get st.activeTrades tradeId with
        | none =>
            { st with
              lifecycleCounters := counters
              errorLog := st.errorLog ++ [.missingTradeOnTpsl k] }
        | some t =>
            let t1 := { t with events := attachEvents t.events allEventsAtTimestamp }
            { st with
              activeTrades := JsMap.set st.activeTrades tradeId t1
              lifecycleCounters := counters }
    | .fillLimitOrderEvent k =>
        { st with lifecycleCounters := initCounter st.lifecycleCounters k }
    | _ => st

/-- Null filtering and chronological sort of the raw input. -/
def sortedEventsOf (events : List (Option EventWTx)) : List EventWTx :=
  sortBy (fun a b => timeKey a - timeKey b) (events.filterMap id)

/-- The `positionEvents` list the loop iterates over. -/
def processedEvents (events : List (Option EventWTx)) : List EventWTx :=
  (sortedEventsOf events).filter isPositionEvent

/-- The `eventsByTimestamp` map of a run. -/
def byTimeOf (events : List (Option EventWTx)) : JsMap Int (List EventWTx) :=
  groupByTime (sortedEventsOf events)

/-- The state after the first `n` loop iterations of a run. -/
def stateAt (assetNameOf : String → String) (events : List (Option EventWTx))
    (n : ℕ) : GroupState :=
  List.foldl (processEvent (byTimeOf events) assetNameOf) initialState
    ((processedEvents events).take n)

/-- All trades tracked by a state. -/
def tradesOfState (st : GroupState) : List ITrade :=
  JsMap.values st.activeTrades ++ st.completedTrades

/-- Close-time sort key of completed trades. -/
def closeKey (t : ITrade) : Int := t.closeTime.getD 0

/-- The per-trade event comparator of `sortTradeEvents`: chronological,
with decrease events ordered before same-timestamp pool-swap events. -/
def tradeEventsCmp (a b : EventWTx) : Int :=
  let aT := timeKey a
  let bT := timeKey b
  if aT = bT then
    if a.event.map PosEvent.eventName = some "DecreasePositionEvent" ∧
        b.event.map PosEvent.eventName = some "PoolSwapEvent" then -1
    else if a.event.map PosEvent.eventName = some "PoolSwapEvent" ∧
        b.event.map PosEvent.eventName = some "DecreasePositionEvent" then 1
    else if a.event.map PosEvent.eventName = some "InstantDecreasePositionEvent" ∧
        b.event.map PosEvent.eventName = some "PoolSwapEvent" then -1
    else if a.event.map PosEvent.eventName = some "PoolSwapEvent" ∧
        b.event.map PosEvent.eventName = some "InstantDecreasePositionEvent" then 1
    else aT - bT
  else aT - bT

/-- `sortTradeEvents`: sort a trade's attached events chronologically
with the decrease-before-swap tie break. -/
def sortTradeEvents (t : ITrade) : ITrade :=
  { t with events := sortBy tradeEventsCmp t.events }

/-- Result of the pda grouper variant. -/
structure GroupResult where
  activeTrades : List ITrade
  completedTrades : List ITrade
  errorLog : List DataError
deriving DecidableEq, Repr

/-- Model of `get-positions-by-pda.ts::groupEventsIntoTrades`. -/
def groupEventsIntoTrades (assetNameOf : String → String)
    (events : List (Option EventWTx)) : GroupResult :=
  let finalState := List.foldl (processEvent (byTimeOf events) assetNameOf)
    initialState (processedEvents events)
  { activeTrades := (JsMap.values finalState.activeTrades).map sortTradeEvents
    completedTrades := (sortBy (fun a b => closeKey b - closeKey a)
      finalState.completedTrades).map sortTradeEvents
    errorLog := finalState.errorLog }

end GetPositionsByPda

end JupPerps

namespace JupPerps

namespace JSNum

theorem isPos_exists {a : JSNum} (h : a.isPos = true) :
    ∃ q : ℚ, a = num q ∧ 0 < q := by
  cases a <;> simp_all [isPos]

theorem isNonNeg_exists {a : JSNum} (h : a.isNonNeg = true) :
    ∃ q : ℚ, a = num q ∧ 0 ≤ q := by
  cases a <;> simp_all [isNonNeg]

theorem add_num (a b : ℚ) : add (num a) (num b) = num (a + b) := rfl

theorem sub_num (a b : ℚ) : sub (num a) (num b) = num (a - b) := by
  simp [sub, neg, add, sub_eq_add_neg]

theorem jsMax_num (a b : ℚ) : jsMax (num a) (num b) = num (max a b) := rfl

theorem or0_num (q : ℚ) : or0 (some (num q)) = num q := by
  by_cases h : q = 0 <;> simp [or0, toBool, h]

theorem leFin_num_exists {x : JSNum} {q : ℚ} (h : leFin x (num q) = true) :
    ∃ p : ℚ, x = num p ∧ p ≤ q := by
  cases x <;> simp_all [leFin]

end JSNum

namespace GetPositionsByPda

/-- A single event is consistent with real chain data as far as the
`maxSize` bookkeeping is concerned: size deltas of increases and of
decreases are nonnegative finite. -/
def consistentStep (st : GroupState) (ewt : EventWTx) : Bool :=
  match ewt.event with
  | some (.increasePos _ d) => d.sizeUsdDelta.isNonNeg
  | some (.decreasePos _ d) => d.sizeUsdDelta.isNonNeg
  | _ => true

/-- Every event of the list is consistent when applied. -/
def consistentRun (byTime : JsMap Int (List EventWTx)) (assetNameOf : String → String) :
    GroupState → List EventWTx → Bool
  | _, [] => true
  | st, e :: rest => consistentStep st e &&
      consistentRun byTime assetNameOf (processEvent byTime assetNameOf st e) rest

/-- The `maxSize` invariant: every active trade has a finite size bounded
by its finite nonnegative `maxSize`; every completed trade has size 0 and
a nonnegative `maxSize`. -/
def MaxSizeOk (st : GroupState) : Prop :=
  (∀ t ∈ JsMap.values st.activeTrades, ∃ s q : ℚ,
    t.sizeUsd = JSNum.num s ∧ t.maxSize = some (JSNum.num q) ∧ s ≤ q ∧ 0 ≤ q) ∧
  (∀ t ∈ st.completedTrades, t.sizeUsd = JSNum.num 0 ∧
    ∃ q : ℚ, t.maxSize = some (JSNum.num q) ∧ 0 ≤ q)

theorem maxSizeOk_initial : MaxSizeOk initialState := by
  constructor <;> simp [initialState, JsMap.values]

theorem maxSizeOk_processEvent (byTime : JsMap Int (List EventWTx))
    (assetNameOf : String → String) (st : GroupState) (ewt : EventWTx)
    (hInv : MaxSizeOk st) (hc : consistentStep st ewt = true) :
    MaxSizeOk (processEvent byTime assetNameOf st ewt) := by
  obtain ⟨hA, hC⟩ := hInv
  cases hev : ewt.event with
  | none => exact ⟨by simpa [processEvent, hev] using hA,
      by simpa [processEvent, hev] using hC⟩
  | some pe =>
    cases pe with
    | increasePos inst d =>
        simp only [consistentStep, hev] at hc
        obtain ⟨ds, hds, hdsnn⟩ := JSNum.isNonNeg_exists hc
        cases hget : JsMap.get st.activeTrades
          (d.positionKey,
            (JsMap.get (initCounter st.lifecycleCounters d.positionKey) d.positionKey).getD 0) with
        | none =>
            refine ⟨?_, ?_⟩
            · intro t ht
              simp only [processEvent, hev, hget] at ht
              rcases JsMap.mem_values_set _ _ _ _ ht with h2 | h2
              · subst h2
                exact ⟨ds, ds, hds, by rw [hds], le_refl ds, hdsnn⟩
              · exact hA t h2
            · intro t ht
              simp only [processEvent, hev, hget] at ht
              exact hC t ht
        | some t0 =>
            obtain ⟨s, q, hs, hq, hle, hqnn⟩ := hA t0 (JsMap.mem_values_of_get _ _ _ hget)
            refine ⟨?_, ?_⟩
            · intro t ht
              simp only [processEvent, hev, hget] at ht
              rcases JsMap.mem_values_set _ _ _ _ ht with h2 | h2
              · subst h2
                refine ⟨s + ds, max (s + ds) q, ?_, ?_, le_max_left _ _,
                  le_trans hqnn (le_max_right _ _)⟩
                · simp [hs, hds, JSNum.add_num]
                · simp [hs, hds, hq, JSNum.add_num, JSNum.or0_num q,
                    JSNum.jsMax_num]
              · exact hA t h2
            · intro t ht
              simp only [processEvent, hev, hget] at ht
              exact hC t ht
    | decreasePos inst d =>
        simp only [consistentStep, hev] at hc
        obtain ⟨dd, hdd, hddnn⟩ := JSNum.isNonNeg_exists hc
        cases hget : JsMap.get st.activeTrades
          (d.positionKey,
            (JsMap.get (initCounter st.lifecycleCounters d.positionKey) d.positionKey).getD 0) with
        | none =>
            refine ⟨?_, ?_⟩
            · intro t ht
              simp only [processEvent, hev, hget] at ht
              exact hA t ht
            · intro t ht
              simp only [processEvent, hev, hget] at ht
              exact hC t ht
        | some t0 =>
            obtain ⟨s, q, hs, hq, hle, hqnn⟩ := hA t0 (JsMap.mem_values_of_get _ _ _ hget)
            by_cases hz : JSNum.eqZero d.positionSizeUsd = true
            · refine ⟨?_, ?_⟩
              · intro t ht
                simp only [processEvent, hev, hget, hz, if_true] at ht
                exact hA t (JsMap.mem_values_delete _ _ _ ht)
              · intro t ht
                simp only [processEvent, hev, hget, hz, if_true] at ht
                rw [List.mem_append] at ht
                rcases ht with ht | ht
                · exact hC t ht
                · simp at ht
                  subst ht
                  exact ⟨rfl, q, hq, hqnn⟩
            · have hz' : JSNum.eqZero d.positionSizeUsd = false := by simpa using hz
              refine ⟨?_, ?_⟩
              · intro t ht
                simp only [processEvent, hev, hget, hz', Bool.false_eq_true, if_false] at ht
                rcases JsMap.mem_values_set _ _ _ _ ht with h2 | h2
                · subst h2
                  refine ⟨s - dd, q, ?_, hq, by linarith, hqnn⟩
                  simp [hs, hdd, JSNum.sub_num]
                · exact hA t h2
              · intro t ht
                simp only [processEvent, hev, hget, hz', Bool.false_eq_true, if_false] at ht
                exact hC t ht
    | liquidateFullPos d =>
        cases hget : JsMap.get st.activeTrades
          (d.positionKey,
            (JsMap.get (initCounter st.lifecycleCounters d.positionKey) d.positionKey).getD 0) with
        | none =>
            refine ⟨?_, ?_⟩
            · intro t ht
              simp only [processEvent, hev, hget] at ht
              exact hA t ht
            · intro t ht
              simp only [processEvent, hev, hget] at ht
              exact hC t ht
        | some t0 =>
            obtain ⟨s, q, hs, hq, hle, hqnn⟩ := hA t0 (JsMap.mem_values_of_get _ _ _ hget)
            refine ⟨?_, ?_⟩
            · intro t ht
              simp only [processEvent, hev, hget] at ht
              exact hA t (JsMap.mem_values_delete _ _ _ ht)
            · intro t ht
              simp only [processEvent, hev, hget] at ht
              rw [List.mem_append] at ht
              rcases ht with ht | ht
              · exact hC t ht
              · simp at ht
                subst ht
                exact ⟨rfl, q, hq, hqnn⟩
    | tpslEvent isCreate k =>
        cases hget : JsMap.get st.activeTrades
          (k, (JsMap.get (initCounter st.lifecycleCounters k) k).getD 0) with
        | none =>
            refine ⟨?_, ?_⟩
            · intro t ht
              simp only [processEvent, hev, hget] at ht
              exact hA t ht
            · intro t ht
              simp only [processEvent, hev, hget] at ht
              exact hC t ht
        | some t0 =>
            obtain ⟨s, q, hs, hq, hle, hqnn⟩ := hA t0 (JsMap.mem_values_of_get _ _ _ hget)
            refine ⟨?_, ?_⟩
            · intro t ht
              simp only [processEvent, hev, hget] at ht
              rcases JsMap.mem_values_set _ _ _ _ ht with h2 | h2
              · subst h2
                exact ⟨s, q, hs, hq, hle, hqnn⟩
              · exact hA t h2
            · intro t ht
              simp only [processEvent, hev, hget] at ht
              exact hC t ht
    | fillLimitOrderEvent k =>
        exact ⟨by simpa [processEvent, hev] using hA,
          by simpa [processEvent, hev] using hC⟩
    | increasePreSwapEvent =>
        exact ⟨by simpa [processEvent, hev] using hA,
          by simpa [processEvent, hev] using hC⟩
    | decreasePostSwapEvent =>
        exact ⟨by simpa [processEvent, hev] using hA,
          by simpa [processEvent, hev] using hC⟩
    | otherEvent nm =>
        exact ⟨by simpa [processEvent, hev] using hA,
          by simpa [processEvent, hev] using hC⟩

theorem maxSizeOk_foldl (byTime : JsMap Int (List EventWTx))
    (assetNameOf : String → String) (l : List EventWTx) (st : GroupState)
    (hInv : MaxSizeOk st) (hc : consistentRun byTime assetNameOf st l = true) (n : ℕ) :
    MaxSizeOk (List.foldl (processEvent byTime assetNameOf) st (l.take n)) := by
  induction l generalizing st n with
  | nil => simpa using hInv
  | cons e rest ih =>
      cases n with
      | zero => simpa using hInv
      | succ m =>
          simp only [consistentRun, Bool.and_eq_true] at hc
          simp only [List.take_succ_cons, List.foldl_cons]
          exact ih (processEvent byTime assetNameOf st e)
            (maxSizeOk_processEvent byTime assetNameOf st e hInv hc.1) hc.2 m

theorem maxSizeOk_pointwise (st : GroupState) (hInv : MaxSizeOk st) :
    ∀ t ∈ tradesOfState st, JSNum.leFin t.sizeUsd (JSNum.or0 t.maxSize) = true := by
  intro t ht
  rw [tradesOfState, List.mem_append] at ht
  rcases ht with ht | ht
  · obtain ⟨s, q, hs, hq, hle, hqnn⟩ := hInv.1 t ht
    rw [hs, hq, JSNum.or0_num q]
    simpa [JSNum.leFin] using hle
  · obtain ⟨h0, q, hq, hqnn⟩ := hInv.2 t ht
    rw [h0, hq, JSNum.or0_num q]
    simpa [JSNum.leFin] using hqnn

/-- Consistency of a single event does not depend on the state it is
applied to. -/
theorem consistentStep_irrel (st st' : GroupState) (e : EventWTx) :
    consistentStep st e = consistentStep st' e := rfl

/-- Every event of a consistent run is individually consistent. -/
theorem consistentRun_mem (byTime : JsMap Int (List EventWTx))
    (assetNameOf : String → String) (l : List EventWTx) (st : GroupState)
    (hc : consistentRun byTime assetNameOf st l = true) :
    ∀ e ∈ l, consistentStep st e = true := by
  induction l generalizing st with
  | nil =>
      intro e he
      cases he
  | cons e0 rest ih =>
      simp only [consistentRun, Bool.and_eq_true] at hc
      intro e he
      rcases List.mem_cons.mp he with he | he
      · subst he
        exact hc.1
      · exact (consistentStep_irrel st (processEvent byTime assetNameOf st e0) e).trans
          (ih (processEvent byTime assetNameOf st e0) hc.2 e he)

/-- The active-trade map never holds two entries with the same trade id. -/
def ActiveKeysNodup (st : GroupState) : Prop :=
  (JsMap.keys st.activeTrades).Nodup

theorem activeKeysNodup_initial : ActiveKeysNodup initialState := by
  simp [ActiveKeysNodup, initialState, JsMap.keys]

theorem activeKeysNodup_processEvent (byTime : JsMap Int (List EventWTx))
    (assetNameOf : String → String) (st : GroupState) (ewt : EventWTx)
    (hInv : ActiveKeysNodup st) :
    ActiveKeysNodup (processEvent byTime assetNameOf st ewt) := by
  cases hev : ewt.event with
  | none => simpa [ActiveKeysNodup, processEvent, hev] using hInv
  | some pe =>
    cases pe with
    | increasePos inst d =>
        cases hget : JsMap.get st.activeTrades
            (d.positionKey,
              (JsMap.get (initCounter st.lifecycleCounters d.positionKey)
                d.positionKey).getD 0) with
        | none =>
            simp only [ActiveKeysNodup, processEvent, hev, hget]
            exact JsMap.keys_set_nodup _ _ _ hInv
        | some t0 =>
            simp only [ActiveKeysNodup, processEvent, hev, hget]
            exact JsMap.keys_set_nodup _ _ _ hInv
    | decreasePos inst d =>
        cases hget : JsMap.get st.activeTrades
            (d.positionKey,
              (JsMap.get (initCounter st.lifecycleCounters d.positionKey)
                d.positionKey).getD 0) with
        | none => simpa [ActiveKeysNodup, processEvent, hev, hget] using hInv
        | some t0 =>
            by_cases hz : JSNum.eqZero d.positionSizeUsd = true
            · simp only [ActiveKeysNodup, processEvent, hev, hget, hz, if_true]
              exact JsMap.keys_delete_nodup _ _ hInv
            · have hz' : JSNum.eqZero d.positionSizeUsd = false := by simpa using hz
              simp only [ActiveKeysNodup, processEvent, hev, hget, hz',
                Bool.false_eq_true, if_false]
              exact JsMap.keys_set_nodup _ _ _ hInv
    | liquidateFullPos d =>
        cases hget : JsMap.get st.activeTrades
            (d.positionKey,
              (JsMap.get (initCounter st.lifecycleCounters d.positionKey)
                d.positionKey).getD 0) with
        | none => simpa [ActiveKeysNodup, processEvent, hev, hget] using hInv
        | some t0 =>
            simp only [ActiveKeysNodup, processEvent, hev, hget]
            exact JsMap.keys_delete_nodup _ _ hInv
    | tpslEvent isCreate k =>
        cases hget : JsMap.get st.activeTrades
            (k, (JsMap.get (initCounter st.lifecycleCounters k) k).getD 0) with
        | none => simpa [ActiveKeysNodup, processEvent, hev, hget] using hInv
        | some t0 =>
            simp only [ActiveKeysNodup, processEvent, hev, hget]
            exact JsMap.keys_set_nodup _ _ _ hInv
    | fillLimitOrderEvent k =>
        simpa [ActiveKeysNodup, processEvent, hev] using hInv
    | increasePreSwapEvent =>
        simpa [ActiveKeysNodup, processEvent, hev] using hInv
    | decreasePostSwapEvent =>
        simpa [ActiveKeysNodup, processEvent, hev] using hInv
    | otherEvent nm =>
        simpa [ActiveKeysNodup, processEvent, hev] using hInv

theorem activeKeysNodup_foldl (byTime : JsMap Int (List EventWTx))
    (assetNameOf : String → String) (l : List EventWTx) (st : GroupState)
    (hInv : ActiveKeysNodup st) :
    ActiveKeysNodup (List.foldl (processEvent byTime assetNameOf) st l) := by
  induction l generalizing st with
  | nil => simpa using hInv
  | cons e rest ih =>
      simp only [List.foldl_cons]
      exact ih _ (activeKeysNodup_processEvent byTime assetNameOf st e hInv)

theorem activeKeysNodup_stateAt (assetNameOf : String → String)
    (events : List (Option EventWTx)) (n : ℕ) :
    ActiveKeysNodup (stateAt assetNameOf events n) :=
  activeKeysNodup_foldl _ _ _ _ activeKeysNodup_initial

/-- How one loop iteration can relate an entry of the active-trade map to
the previous state: it is carried over with size and `maxSize` untouched
(possibly with other fields updated), freshly created by an increase with
size and `maxSize` both the opening size delta, updated by an increase
with the new size and the `max` update law, or partially decreased with
`maxSize` untouched. -/
theorem processEvent_active_cases (byTime : JsMap Int (List EventWTx))
    (assetNameOf : String → String) (st : GroupState) (e : EventWTx)
    (hND : ActiveKeysNodup st) (τ : String × Nat) (t' : ITrade)
    (h : JsMap.get (processEvent byTime assetNameOf st e).activeTrades τ = some t') :
    (∃ t, JsMap.get st.activeTrades τ = some t ∧
      t'.sizeUsd = t.sizeUsd ∧ t'.maxSize = t.maxSize) ∨
    (∃ inst d, e.event = some (.increasePos inst d) ∧
      JsMap.get st.activeTrades τ = none ∧
      t'.sizeUsd = d.sizeUsdDelta ∧ t'.maxSize = some d.sizeUsdDelta) ∨
    (∃ inst d t, e.event = some (.increasePos inst d) ∧
      JsMap.get st.activeTrades τ = some t ∧
      t'.sizeUsd = JSNum.add t.sizeUsd d.sizeUsdDelta ∧
      t'.maxSize = some (JSNum.jsMax (JSNum.add t.sizeUsd d.sizeUsdDelta)
        (JSNum.or0 t.maxSize))) ∨
    (∃ inst d t, e.event = some (.decreasePos inst d) ∧
      JsMap.get st.activeTrades τ = some t ∧
      t'.sizeUsd = JSNum.sub t.sizeUsd d.sizeUsdDelta ∧
      t'.maxSize = t.maxSize) := by
  cases hev : e.event with
  | none =>
      simp only [processEvent, hev] at h
      exact Or.inl ⟨t', h, rfl, rfl⟩
  | some pe =>
    cases pe with
    | increasePos inst d =>
        cases hget : JsMap.get st.activeTrades
            (d.positionKey,
              (JsMap.get (initCounter st.lifecycleCounters d.positionKey)
                d.positionKey).getD 0) with
        | none =>
            simp only [processEvent, hev, hget] at h
            by_cases hττ : τ = (d.positionKey,
                (JsMap.get (initCounter st.lifecycleCounters d.positionKey)
                  d.positionKey).getD 0)
            · subst hττ
              rw [JsMap.get_set_self] at h
              injection h with h
              subst h
              exact Or.inr (Or.inl ⟨inst, d, rfl, hget, rfl, rfl⟩)
            · rw [JsMap.get_set_ne _ _ _ _ hττ] at h
              exact Or.inl ⟨t', h, rfl, rfl⟩
        | some t0 =>
            simp only [processEvent, hev, hget] at h
            by_cases hττ : τ = (d.positionKey,
                (JsMap.get (initCounter st.lifecycleCounters d.positionKey)
                  d.positionKey).getD 0)
            · subst hττ
              rw [JsMap.get_set_self] at h
              injection h with h
              subst h
              exact Or.inr (Or.inr (Or.inl ⟨inst, d, t0, rfl, hget, rfl, rfl⟩))
            · rw [JsMap.get_set_ne _ _ _ _ hττ] at h
              exact Or.inl ⟨t', h, rfl, rfl⟩
    | decreasePos inst d =>
        cases hget : JsMap.get st.activeTrades
            (d.positionKey,
              (JsMap.get (initCounter st.lifecycleCounters d.positionKey)
                d.positionKey).getD 0) with
        | none =>
            simp only [processEvent, hev, hget] at h
            exact Or.inl ⟨t', h, rfl, rfl⟩
        | some t0 =>
            by_cases hz : JSNum.eqZero d.positionSizeUsd = true
            · simp only [processEvent, hev, hget, hz, if_true] at h
              by_cases hττ : τ = (d.positionKey,
                  (JsMap.get (initCounter st.lifecycleCounters d.positionKey)
                    d.positionKey).getD 0)
              · subst hττ
                rw [JsMap.get_delete_self _ _ hND] at h
                simp at h
              · rw [JsMap.get_delete_ne _ _ _ hττ] at h
                exact Or.inl ⟨t', h, rfl, rfl⟩
            · have hz' : JSNum.eqZero d.positionSizeUsd = false := by simpa using hz
              simp only [processEvent, hev, hget, hz', Bool.false_eq_true, if_false] at h
              by_cases hττ : τ = (d.positionKey,
                  (JsMap.get (initCounter st.lifecycleCounters d.positionKey)
                    d.positionKey).getD 0)
              · subst hττ
                rw [JsMap.get_set_self] at h
                injection h with h
                subst h
                exact Or.inr (Or.inr (Or.inr ⟨inst, d, t0, rfl, hget, rfl, rfl⟩))
              · rw [JsMap.get_set_ne _ _ _ _ hττ] at h
                exact Or.inl ⟨t', h, rfl, rfl⟩
    | liquidateFullPos d =>
        cases hget : JsMap.get st.activeTrades
            (d.positionKey,
              (JsMap.get (initCounter st.lifecycleCounters d.positionKey)
                d.positionKey).getD 0) with
        | none =>
            simp only [processEvent, hev, hget] at h
            exact Or.inl ⟨t', h, rfl, rfl⟩
        | some t0 =>
            simp only [processEvent, hev, hget] at h
            by_cases hττ : τ = (d.positionKey,
                (JsMap.get (initCounter st.lifecycleCounters d.positionKey)
                  d.positionKey).getD 0)
            · subst hττ
              rw [JsMap.get_delete_self _ _ hND] at h
              simp at h
            · rw [JsMap.get_delete_ne _ _ _ hττ] at h
              exact Or.inl ⟨t', h, rfl, rfl⟩
    | tpslEvent isCreate k =>
        cases hget : JsMap.get st.activeTrades
            (k, (JsMap.get (initCounter st.lifecycleCounters k) k).getD 0) with
        | none =>
            simp only [processEvent, hev, hget] at h
            exact Or.inl ⟨t', h, rfl, rfl⟩
        | some t0 =>
            simp only [processEvent, hev, hget] at h
            by_cases hττ : τ = (k,
                (JsMap.get (initCounter st.lifecycleCounters k) k).getD 0)
            · subst hττ
              rw [JsMap.get_set_self] at h
              injection h with h
              subst h
              exact Or.inl ⟨t0, hget, rfl, rfl⟩
            · rw [JsMap.get_set_ne _ _ _ _ hττ] at h
              exact Or.inl ⟨t', h, rfl, rfl⟩
    | fillLimitOrderEvent k =>
        simp only [processEvent, hev] at h
        exact Or.inl ⟨t', h, rfl, rfl⟩
    | increasePreSwapEvent =>
        simp only [processEvent, hev] at h
        exact Or.inl ⟨t', h, rfl, rfl⟩
    | decreasePostSwapEvent =>
        simp only [processEvent, hev] at h
        exact Or.inl ⟨t', h, rfl, rfl⟩
    | otherEvent nm =>
        simp only [processEvent, hev] at h
        exact Or.inl ⟨t', h, rfl, rfl⟩

theorem stateAt_succ_of_getElem (assetNameOf : String → String)
    (events : List (Option EventWTx)) (n : ℕ) (e : EventWTx)
    (h : (processedEvents events)[n]? = some e) :
    stateAt assetNameOf events (n + 1) =
      processEvent (byTimeOf events) assetNameOf (stateAt assetNameOf events n) e := by
  rw [stateAt, stateAt, List.take_succ, h, List.foldl_append]
  simp

theorem stateAt_succ_of_none (assetNameOf : String → String)
    (events : List (Option EventWTx)) (n : ℕ)
    (h : (processedEvents events)[n]? = none) :
    stateAt assetNameOf events (n + 1) = stateAt assetNameOf events n := by
  rw [stateAt, stateAt, List.take_succ, h, List.foldl_append]
  simp

/-- The sizes a trade id has held over its current uninterrupted stretch
of activity, up to and including the state after `n` loop iterations:
the record is empty while the id is not active and is extended by the
current size at each step at which it is active. -/
def activeSizes (assetNameOf : String → String) (events : List (Option EventWTx))
    (τ : String × Nat) : ℕ → List JSNum
  | 0 => []
  | n + 1 =>
      match JsMap.get (stateAt assetNameOf events (n + 1)).activeTrades τ with
      | none => []
      | some t => activeSizes assetNameOf events τ n ++ [t.sizeUsd]

theorem activeSizes_of_none (assetNameOf : String → String)
    (events : List (Option EventWTx)) (τ : String × Nat) (n : ℕ)
    (h : JsMap.get (stateAt assetNameOf events n).activeTrades τ = none) :
    activeSizes assetNameOf events τ n = [] := by
  cases n with
  | zero => rfl
  | succ m => simp [activeSizes, h]

theorem activeSizes_succ_some (assetNameOf : String → String)
    (events : List (Option EventWTx)) (τ : String × Nat) (n : ℕ) (t : ITrade)
    (h : JsMap.get (stateAt assetNameOf events (n + 1)).activeTrades τ = some t) :
    activeSizes assetNameOf events τ (n + 1) =
      activeSizes assetNameOf events τ n ++ [t.sizeUsd] := by
  simp [activeSizes, h]

theorem sizeUsd_mem_activeSizes (assetNameOf : String → String)
    (events : List (Option EventWTx)) (τ : String × Nat) (n : ℕ) (t : ITrade)
    (h : JsMap.get (stateAt assetNameOf events n).activeTrades τ = some t) :
    t.sizeUsd ∈ activeSizes assetNameOf events τ n := by
  cases n with
  | zero =>
      rw [stateAt] at h
      simp [initialState, JsMap.get] at h
  | succ m =>
      rw [activeSizes_succ_some assetNameOf events τ m t h]
      simp

/-- Carrying a trade over one step with size and `maxSize` untouched
preserves the record-of-the-largest-size property. -/
theorem recordsMax_extend (assetNameOf : String → String)
    (events : List (Option EventWTx)) (τ : String × Nat) (n : ℕ) (t t' : ITrade)
    (hN : JsMap.get (stateAt assetNameOf events n).activeTrades τ = some t)
    (hN1 : JsMap.get (stateAt assetNameOf events (n + 1)).activeTrades τ = some t')
    (hsz : t'.sizeUsd = t.sizeUsd) (hmx : t'.maxSize = t.maxSize)
    (q : ℚ) (hq : t.maxSize = some (JSNum.num q))
    (hmem : JSNum.num q ∈ activeSizes assetNameOf events τ n)
    (hbd : ∀ x ∈ activeSizes assetNameOf events τ n,
      JSNum.leFin x (JSNum.num q) = true) :
    ∃ q' : ℚ, t'.maxSize = some (JSNum.num q') ∧
      JSNum.num q' ∈ activeSizes assetNameOf events τ (n + 1) ∧
      ∀ x ∈ activeSizes assetNameOf events τ (n + 1),
        JSNum.leFin x (JSNum.num q') = true := by
  refine ⟨q, hmx.trans hq, ?_, ?_⟩
  · rw [activeSizes_succ_some assetNameOf events τ n t' hN1]
    exact List.mem_append_left _ hmem
  · rw [activeSizes_succ_some assetNameOf events τ n t' hN1]
    intro x hx
    rcases List.mem_append.mp hx with hx | hx
    · exact hbd x hx
    · rw [List.mem_singleton] at hx
      subst hx
      rw [hsz]
      exact hbd t.sizeUsd (sizeUsd_mem_activeSizes assetNameOf events τ n t hN)

/-- Along a consistent run, every active trade's `maxSize` is the largest
size the trade has held during its current active life: it is one of the
recorded sizes and bounds them all. -/
theorem maxSize_history (assetNameOf : String → String)
    (events : List (Option EventWTx))
    (h : consistentRun (byTimeOf events) assetNameOf initialState
      (processedEvents events) = true) :
    ∀ n τ t, JsMap.get (stateAt assetNameOf events n).activeTrades τ = some t →
      ∃ q : ℚ, t.maxSize = some (JSNum.num q) ∧
        JSNum.num q ∈ activeSizes assetNameOf events τ n ∧
        ∀ x ∈ activeSizes assetNameOf events τ n,
          JSNum.leFin x (JSNum.num q) = true := by
  intro n
  induction n with
  | zero =>
      intro τ t ht
      rw [stateAt] at ht
      simp [initialState, JsMap.get] at ht
  | succ m ih =>
      intro τ t ht
      cases hgete : (processedEvents events)[m]? with
      | none =>
          have ht0 : JsMap.get (stateAt assetNameOf events m).activeTrades τ = some t := by
            rw [← stateAt_succ_of_none assetNameOf events m hgete]
            exact ht
          obtain ⟨q, hq, hmem, hbd⟩ := ih τ t ht0
          exact recordsMax_extend assetNameOf events τ m t t ht0 ht rfl rfl q hq hmem hbd
      | some e =>
          have hcs : consistentStep (stateAt assetNameOf events m) e = true := by
            have h2 := consistentRun_mem (byTimeOf events) assetNameOf
              (processedEvents events) initialState h e (List.getElem?_mem hgete)
            exact (consistentStep_irrel _ initialState e).trans h2
          have hND : ActiveKeysNodup (stateAt assetNameOf events m) :=
            activeKeysNodup_stateAt assetNameOf events m
          have ht1 : JsMap.get (processEvent (byTimeOf events) assetNameOf
              (stateAt assetNameOf events m) e).activeTrades τ = some t := by
            rw [← stateAt_succ_of_getElem assetNameOf events m e hgete]
            exact ht
          rcases processEvent_active_cases (byTimeOf events) assetNameOf
              (stateAt assetNameOf events m) e hND τ t ht1 with
            ⟨t0, hget0, hsz, hmx⟩ | ⟨inst, d, hev, hget0, hsz, hmx⟩ |
            ⟨inst, d, t0, hev, hget0, hsz, hmx⟩ | ⟨inst, d, t0, hev, hget0, hsz, hmx⟩
          · obtain ⟨q, hq, hmem, hbd⟩ := ih τ t0 hget0
            exact recordsMax_extend assetNameOf events τ m t0 t hget0 ht hsz hmx q hq hmem hbd
          · simp only [consistentStep, hev] at hcs
            obtain ⟨ds, hds, hdsnn⟩ := JSNum.isNonNeg_exists hcs
            refine ⟨ds, ?_, ?_, ?_⟩
            · rw [hmx, hds]
            · rw [activeSizes_succ_some assetNameOf events τ m t ht,
                activeSizes_of_none assetNameOf events τ m hget0]
              simp [hsz, hds]
            · rw [activeSizes_succ_some assetNameOf events τ m t ht,
                activeSizes_of_none assetNameOf events τ m hget0]
              intro x hx
              simp only [List.nil_append, List.mem_singleton] at hx
              subst hx
              rw [hsz, hds]
              simp [JSNum.leFin]
          · obtain ⟨q, hq, hmem, hbd⟩ := ih τ t0 hget0
            simp only [consistentStep, hev] at hcs
            obtain ⟨ds, hds, hdsnn⟩ := JSNum.isNonNeg_exists hcs
            obtain ⟨s, hs, hsle⟩ := JSNum.leFin_num_exists
              (hbd t0.sizeUsd (sizeUsd_mem_activeSizes assetNameOf events τ m t0 hget0))
            refine ⟨max (s + ds) q, ?_, ?_, ?_⟩
            · rw [hmx, hs, hds, hq, JSNum.add_num, JSNum.or0_num, JSNum.jsMax_num]
            · rw [activeSizes_succ_some assetNameOf events τ m t ht]
              rcases le_total q (s + ds) with hcase | hcase
              · rw [max_eq_left hcase]
                refine List.mem_append_right _ ?_
                rw [hsz, hs, hds, JSNum.add_num]
                simp
              · rw [max_eq_right hcase]
                exact List.mem_append_left _ hmem
            · rw [activeSizes_succ_some assetNameOf events τ m t ht]
              intro x hx
              rcases List.mem_append.mp hx with hx | hx
              · obtain ⟨p, hp, hple⟩ := JSNum.leFin_num_exists (hbd x hx)
                rw [hp]
                simp only [JSNum.leFin, decide_eq_true_eq]
                exact le_trans hple (le_max_right _ _)
              · rw [List.mem_singleton] at hx
                subst hx
                rw [hsz, hs, hds, JSNum.add_num]
                simp only [JSNum.leFin, decide_eq_true_eq]
                exact le_max_left _ _
          · obtain ⟨q, hq, hmem, hbd⟩ := ih τ t0 hget0
            simp only [consistentStep, hev] at hcs
            obtain ⟨dd, hdd, hddnn⟩ := JSNum.isNonNeg_exists hcs
            obtain ⟨s, hs, hsle⟩ := JSNum.leFin_num_exists
              (hbd t0.sizeUsd (sizeUsd_mem_activeSizes assetNameOf events τ m t0 hget0))
            refine ⟨q, hmx.trans hq, ?_, ?_⟩
            · rw [activeSizes_succ_some assetNameOf events τ m t ht]
              exact List.mem_append_left _ hmem
            · rw [activeSizes_succ_some assetNameOf events τ m t ht]
              intro x hx
              rcases List.mem_append.mp hx with hx | hx
              · exact hbd x hx
              · rw [List.mem_singleton] at hx
                subst hx
                rw [hsz, hs, hdd, JSNum.sub_num]
                simp only [JSNum.leFin, decide_eq_true_eq]
                linarith

end GetPositionsByPda

end JupPerps

namespace JupPerps

namespace GetPositionsByPda

/-- Fixture: transaction context of the pda-variant opening increase. -/
def pdaTxA : TxMeta := ⟨"psig1", some 1000, 5000⟩

/-- Fixture: transaction context of the pda-variant second event. -/
def pdaTxB : TxMeta := ⟨"psig2", some 2000, 5000⟩

/-- Fixture: opening increase of size 100 with collateral 10. -/
def cexIncEvent : EventWTx :=
  ⟨some (.increasePos false
    ⟨"P", "Long", "O", "C", .num 100, .num 100, .num 10, .num 150, none⟩), pdaTxA⟩

/-- Fixture: a decrease carrying a NEGATIVE size delta of −50 with
reported remaining size 150. -/
def cexNegDecEvent : EventWTx :=
  ⟨some (.decreasePos false
    ⟨"P", .num (-50), .num 150, .num 150, .num 0, false, none⟩), pdaTxB⟩

/-- Fixture: opening increase with a NaN size delta. -/
def cexNanIncEvent : EventWTx :=
  ⟨some (.increasePos false
    ⟨"P", "Long", "O", "C", .nan, .num 0, .num 10, .num 150, none⟩), pdaTxA⟩

/-- Fixture: opening increase with an Infinity size delta. -/
def cexInfIncEvent : EventWTx :=
  ⟨some (.increasePos false
    ⟨"P", "Long", "O", "C", .inf, .num 0, .num 10, .num 150, none⟩), pdaTxA⟩

/-- Fixture: opening increase with a NEGATIVE size delta of −5. -/
def cexNegIncEvent : EventWTx :=
  ⟨some (.increasePos false
    ⟨"P", "Long", "O", "C", .num (-5), .num 0, .num 10, .num 150, none⟩), pdaTxA⟩

/-- Fixture: full close (reported remaining size 0) with size delta 0. -/
def cexZeroDecEvent : EventWTx :=
  ⟨some (.decreasePos false
    ⟨"P", .num 0, .num 0, .num 150, .num 0, false, none⟩), pdaTxB⟩

/-- C6 counterexample: the claim asserts `maxSize ≥ currentSize` after
every event application for ANY input sequence, but each kind of
ill-formed size delta breaks it.  (1) A decrease with a negative size
delta grows the trade's size past its recorded `maxSize`: after
`[Increase(100), Decrease(−50)]` the active trade has size 150 and
`maxSize` 100.  (2)(3) An opening increase with a NaN or Infinity size
delta yields a trade whose `maxSize ≥ currentSize` comparison fails
outright.  (4) An opening increase with the negative size delta −5
followed by a full close leaves a completed trade with size 0 above its
`maxSize` of −5.  These violations force the amended hypotheses that
increase and decrease size deltas be nonnegative finite. -/
theorem maxSize_violation_counterexample :
    ((groupEventsIntoTrades (fun _ => "SOL")
        [some cexIncEvent, some cexNegDecEvent]).activeTrades.map
      (fun t => (t.sizeUsd, t.maxSize,
        JSNum.leFin t.sizeUsd (JSNum.or0 t.maxSize)))) =
      [(.num 150, some (.num 100), false)] ∧
    ((groupEventsIntoTrades (fun _ => "SOL") [some cexNanIncEvent]).activeTrades.map
      (fun t => JSNum.leFin t.sizeUsd (JSNum.or0 t.maxSize))) = [false] ∧
    ((groupEventsIntoTrades (fun _ => "SOL") [some cexInfIncEvent]).activeTrades.map
      (fun t => JSNum.leFin t.sizeUsd (JSNum.or0 t.maxSize))) = [false] ∧
    ((groupEventsIntoTrades (fun _ => "SOL")
        [some cexNegIncEvent, some cexZeroDecEvent]).completedTrades.map
      (fun t => (t.sizeUsd, t.maxSize,
        JSNum.leFin t.sizeUsd (JSNum.or0 t.maxSize)))) =
      [(.num 0, some (.num (-5)), false)] := by
  refine ⟨?_, ?_, ?_, ?_⟩ <;>
    norm_num [groupEventsIntoTrades, processedEvents, sortedEventsOf, byTimeOf,
      groupByTime, eventsAtTime, sortBy, insertBy, timeKey, processEvent,
      initialState, initCounter, countOf, isPositionEvent, attachEvents,
      isDuplicateIn, feeOf, sortTradeEvents, tradeEventsCmp, closeKey,
      cexIncEvent, cexNegDecEvent, cexNanIncEvent, cexInfIncEvent,
      cexNegIncEvent, cexZeroDecEvent, pdaTxA, pdaTxB, PosEvent.eventName,
      JsMap.get, JsMap.set, JsMap.delete, JsMap.hasKey, JsMap.values,
      JSNum.add, JSNum.sub, JSNum.neg, JSNum.div, JSNum.mul, JSNum.or0,
      JSNum.orElse, JSNum.toBool, JSNum.eqZero, JSNum.jsMax, JSNum.leFin]

/-- C6 (amended): for event sequences whose increase and decrease size
deltas are nonnegative finite (what real chain data provides), after
every event application and in the returned result every trade satisfies
`maxSize ≥ currentSize`; `maxSize` is initialised to the opening size on
trade creation, updated on each increase as
`max(new size, previous maxSize)`, left unchanged by partial decreases
and carried unchanged onto the completed trade at close and at
liquidation; and at every step each active trade's `maxSize` equals the
largest size the trade has held during its current active life (it is
one of the recorded sizes and bounds them all). -/
theorem maxSize_invariant (assetNameOf : String → String)
    (events : List (Option EventWTx))
    (h : consistentRun (byTimeOf events) assetNameOf initialState
      (processedEvents events) = true) :
    (∀ n, ∀ t ∈ tradesOfState (stateAt assetNameOf events n),
      JSNum.leFin t.sizeUsd (JSNum.or0 t.maxSize) = true) ∧
    (∀ t, (t ∈ (groupEventsIntoTrades assetNameOf events).activeTrades ∨
           t ∈ (groupEventsIntoTrades assetNameOf events).completedTrades) →
      JSNum.leFin t.sizeUsd (JSNum.or0 t.maxSize) = true) ∧
    (∀ (st : GroupState) (ewt : EventWTx) (inst : Bool) (d : IncreaseData),
      ewt.event = some (.increasePos inst d) →
      JsMap.get st.activeTrades (d.positionKey, countOf st d.positionKey) = none →
      ∃ u, JsMap.get (processEvent (byTimeOf events) assetNameOf st ewt).activeTrades
          (d.positionKey, countOf st d.positionKey) = some u ∧
        u.maxSize = some u.sizeUsd ∧ u.sizeUsd = d.sizeUsdDelta) ∧
    (∀ (st : GroupState) (ewt : EventWTx) (inst : Bool) (d : IncreaseData) (t : ITrade),
      ewt.event = some (.increasePos inst d) →
      JsMap.get st.activeTrades (d.positionKey, countOf st d.positionKey) = some t →
      ∃ u, JsMap.get (processEvent (byTimeOf events) assetNameOf st ewt).activeTrades
          (d.positionKey, countOf st d.positionKey) = some u ∧
        u.maxSize = some (JSNum.jsMax (JSNum.add t.sizeUsd d.sizeUsdDelta)
          (JSNum.or0 t.maxSize)) ∧
        u.sizeUsd = JSNum.add t.sizeUsd d.sizeUsdDelta) ∧
    (∀ (st : GroupState) (ewt : EventWTx) (inst : Bool) (d : DecreaseData) (t : ITrade),
      ewt.event = some (.decreasePos inst d) →
      JsMap.get st.activeTrades (d.positionKey, countOf st d.positionKey) = some t →
      JSNum.eqZero d.positionSizeUsd = false →
      ∃ u, JsMap.get (processEvent (byTimeOf events) assetNameOf st ewt).activeTrades
          (d.positionKey, countOf st d.positionKey) = some u ∧
        u.maxSize = t.maxSize ∧ u.sizeUsd = JSNum.sub t.sizeUsd d.sizeUsdDelta) ∧
    (∀ (st : GroupState) (ewt : EventWTx) (inst : Bool) (d : DecreaseData) (t : ITrade),
      ewt.event = some (.decreasePos inst d) →
      JsMap.get st.activeTrades (d.positionKey, countOf st d.positionKey) = some t →
      JSNum.eqZero d.positionSizeUsd = true →
      ∃ u, (processEvent (byTimeOf events) assetNameOf st ewt).completedTrades =
          st.completedTrades ++ [u] ∧
        u.maxSize = t.maxSize ∧ u.sizeUsd = JSNum.num 0) ∧
    (∀ (st : GroupState) (ewt : EventWTx) (d : LiquidateData) (t : ITrade),
      ewt.event = some (.liquidateFullPos d) →
      JsMap.get st.activeTrades (d.positionKey, countOf st d.positionKey) = some t →
      ∃ u, (processEvent (byTimeOf events) assetNameOf st ewt).completedTrades =
          st.completedTrades ++ [u] ∧
        u.maxSize = t.maxSize ∧ u.sizeUsd = JSNum.num 0) ∧
    (∀ n τ t, JsMap.get (stateAt assetNameOf events n).activeTrades τ = some t →
      ∃ q : ℚ, t.maxSize = some (JSNum.num q) ∧
        JSNum.num q ∈ activeSizes assetNameOf events τ n ∧
        ∀ x ∈ activeSizes assetNameOf events τ n,
          JSNum.leFin x (JSNum.num q) = true) := by
  refine ⟨?_, ?_, ?_, ?_, ?_, ?_, ?_, ?_⟩
  · intro n
    exact maxSizeOk_pointwise _
      (maxSizeOk_foldl (byTimeOf events) assetNameOf (processedEvents events)
        initialState maxSizeOk_initial h n)
  · have hfin : MaxSizeOk (List.foldl (processEvent (byTimeOf events) assetNameOf)
        initialState (processedEvents events)) := by
      have h2 := maxSizeOk_foldl (byTimeOf events) assetNameOf (processedEvents events)
        initialState maxSizeOk_initial h (processedEvents events).length
      rwa [List.take_length] at h2
    intro t ht
    rcases ht with ht | ht
    · simp only [groupEventsIntoTrades] at ht
      rcases List.mem_map.mp ht with ⟨u, hu, hut⟩
      have h3 := maxSizeOk_pointwise _ hfin u
        (by rw [tradesOfState, List.mem_append]; exact Or.inl hu)
      rw [← hut]
      simpa [sortTradeEvents] using h3
    · simp only [groupEventsIntoTrades] at ht
      rcases List.mem_map.mp ht with ⟨u, hu, hut⟩
      have hu2 := (mem_sortBy _ u _).mp hu
      have h3 := maxSizeOk_pointwise _ hfin u
        (by rw [tradesOfState, List.mem_append]; exact Or.inr hu2)
      rw [← hut]
      simpa [sortTradeEvents] using h3
  · intro st ewt inst d he hn
    have hn' : JsMap.get st.activeTrades
        (d.positionKey, (JsMap.get st.lifecycleCounters d.positionKey).getD 0) = none := by
      simpa [countOf] using hn
    simp only [processEvent, he, countOf, get_initCounter_getD, hn']
    exact ⟨_, JsMap.get_set_self _ _ _, rfl, rfl⟩
  · intro st ewt inst d t he ht
    have ht' : JsMap.get st.activeTrades
        (d.positionKey, (JsMap.get st.lifecycleCounters d.positionKey).getD 0) = some t := by
      simpa [countOf] using ht
    simp only [processEvent, he, countOf, get_initCounter_getD, ht']
    exact ⟨_, JsMap.get_set_self _ _ _, rfl, rfl⟩
  · intro st ewt inst d t he ht hz
    have ht' : JsMap.get st.activeTrades
        (d.positionKey, (JsMap.get st.lifecycleCounters d.positionKey).getD 0) = some t := by
      simpa [countOf] using ht
    simp only [processEvent, he, countOf, get_initCounter_getD, ht', hz,
      Bool.false_eq_true, if_false]
    exact ⟨_, JsMap.get_set_self _ _ _, rfl, rfl⟩
  · intro st ewt inst d t he ht hz
    have ht' : JsMap.get st.activeTrades
        (d.positionKey, (JsMap.get st.lifecycleCounters d.positionKey).getD 0) = some t := by
      simpa [countOf] using ht
    simp only [processEvent, he, countOf, get_initCounter_getD, ht', hz, if_true]
    exact ⟨_, rfl, rfl, rfl⟩
  · intro st ewt d t he ht
    have ht' : JsMap.get st.activeTrades
        (d.positionKey, (JsMap.get st.lifecycleCounters d.positionKey).getD 0) = some t := by
      simpa [countOf] using ht
    simp only [processEvent, he, countOf, get_initCounter_getD, ht']
    exact ⟨_, rfl, rfl, rfl⟩
  · exact maxSize_history assetNameOf events h

/-- Fixture: a closing decrease of the full size 100 with pnl +3. -/
def pdaDecEvent : EventWTx :=
  ⟨some (.decreasePos false
    ⟨"P", .num 100, .num 0, .num 150, .num 3, true, none⟩), pdaTxB⟩

/-- C6 witness: the two-event open/close fixture is a consistent run and
the amended `maxSize` invariant applies to it. -/
theorem maxSize_invariant_witness :
    consistentRun (byTimeOf [some cexIncEvent, some pdaDecEvent]) (fun _ => "SOL")
      initialState (processedEvents [some cexIncEvent, some pdaDecEvent]) = true ∧
    (∀ n, ∀ t ∈ tradesOfState
        (stateAt (fun _ => "SOL") [some cexIncEvent, some pdaDecEvent] n),
      JSNum.leFin t.sizeUsd (JSNum.or0 t.maxSize) = true) := by
  have hcr : consistentRun (byTimeOf [some cexIncEvent, some pdaDecEvent]) (fun _ => "SOL")
      initialState (processedEvents [some cexIncEvent, some pdaDecEvent]) = true := by
    norm_num [consistentRun, consistentStep, processedEvents, sortedEventsOf, byTimeOf,
      groupByTime, eventsAtTime, sortBy, insertBy, timeKey, processEvent,
      initialState, initCounter, countOf, isPositionEvent, attachEvents,
      isDuplicateIn, feeOf, cexIncEvent, pdaDecEvent, pdaTxA, pdaTxB,
      PosEvent.eventName, JsMap.get, JsMap.set, JsMap.delete, JsMap.hasKey,
      JSNum.add, JSNum.sub, JSNum.neg, JSNum.div, JSNum.mul, JSNum.or0,
      JSNum.toBool, JSNum.eqZero, JSNum.jsMax, JSNum.isNonNeg]
  exact ⟨hcr, (maxSize_invariant (fun _ => "SOL") [some cexIncEvent, some pdaDecEvent] hcr).1⟩

end GetPositionsByPda

end JupPerps
